import Mathlib

/-!
# EFI file system access (`src/efifile.c`)

A shallow embedding of the discovery, directory-walk and BCD-patch code of
`efifile.c`, followed by theorems about it.

* Memory buffers are lists of bytes (`Nat`), accessed through an explicit
  window check, so that an access outside the read window is a visible
  `oob` result instead of undefined behaviour.
* Firmware and collaborator calls are answered by an explicit environment
  and every call is appended to an event log carried in the state.
-/

namespace EfiFile

/-! ## Part 1: the BCD patch -/

/-- Result of code that touches a byte buffer: the new buffer, an access
outside the read window, or an exhausted iteration budget. -/
inductive Mem where
  | ok (data : List Nat)
  | oob
  | fuel
  deriving DecidableEq, Repr

/-- Width of `wchar_t` in bytes.  `efifile.c` passes `CHAR16 *` values
(`info.file.FileName`, `efi_bootarch ()`) straight to `wcscasecmp`, so
`wchar_t` is the 2-byte `CHAR16` in this build. -/
def sizeof_wchar_t : Nat := 2

/-- Modelled from the spec: `towupper` comes from the C library headers,
which are not under `src/`.  Case-insensitive comparison folds the ASCII
letters `a`..`z` to `A`..`Z` and leaves every other code unit alone. -/
def towupper (c : Nat) : Nat :=
  if 97 ≤ c ∧ c ≤ 122 then c - 32 else c

/-- Modelled from the spec: `wcscasecmp` is declared by `<wchar.h>` and its
body is not under `src/`.  It is the case-insensitive comparison of two
NUL-terminated wide strings: code units are compared after `towupper` until
they differ or the first string ends, and the difference of the last pair is
returned.  `str1 k` reads the `k`-th code unit of the first string (`none`
when that read leaves the window); the second string is given by its code
units before the terminating NUL. -/
def wcscasecmp (str1 : Nat → Option Nat) : List Nat → Nat → Option Int
  | [], k =>
    match str1 k with
    | none => none
    | some w => some ((towupper w : Int) - (towupper 0 : Int))
  | c :: rest, k =>
    match str1 k with
    | none => none
    | some w =>
      if towupper w ≠ 0 ∧ towupper w = towupper c then
        wcscasecmp str1 rest (k + 1)
      else
        some ((towupper w : Int) - (towupper c : Int))

/-- Read the byte at index `p` of the window `data[0 .. len)`. -/
def read_byte (data : List Nat) (len p : Nat) : Option Nat :=
  if p < len then data[p]? else none

/-- Read the little-endian 2-byte code unit at byte index `p`. -/
def read_wchar (data : List Nat) (len p : Nat) : Option Nat :=
  match read_byte data len p, read_byte data len (p + 1) with
  | some lo, some hi => some (lo + 256 * hi)
  | _, _ => none

/-- The wide string starting at byte `data + i`, as seen by `wcscasecmp`. -/
def wstr_at (data : List Nat) (len i : Nat) : Nat → Option Nat :=
  fun k => read_wchar data len (i + sizeof_wchar_t * k)

/-- Little-endian bytes of a wide string, terminating NUL included. -/
def wchar_bytes : List Nat → List Nat
  | [] => [0, 0]
  | c :: rest => (c % 256) :: (c / 256 % 256) :: wchar_bytes rest

/-- The string `static const wchar_t search[] = L".exe";`. -/
def search : List Nat := [46, 101, 120, 101]

/-- The string `static const wchar_t replace[] = L".efi";`. -/
def replace : List Nat := [46, 101, 102, 105]

/-- Value of `sizeof ( search )`: four code units and the terminating NUL. -/
def sizeof_search : Nat := (search.length + 1) * sizeof_wchar_t

/-- Value of `sizeof ( replace )`. -/
def sizeof_replace : Nat := (replace.length + 1) * sizeof_wchar_t

/-- The call `memcpy ( data + dest, src, |src| )` with every written index checked
against the window. -/
def memcpy (len : Nat) : List Nat → Nat → List Nat → Mem
  | [], _, data => .ok data
  | b :: rest, dest, data =>
    if dest < len ∧ dest < data.length then
      memcpy len rest (dest + 1) (data.set dest b)
    else .oob

/-- The `for` loop of `efi_patch_bcd`, with `i` and the buffer as loop
state.  The first argument bounds the number of iterations. -/
def efi_patch_bcd_loop (len : Nat) : Nat → Nat → List Nat → Mem
  | 0, i, data => if i + sizeof_search < len then .fuel else .ok data
  | n + 1, i, data =>
    if i + sizeof_search < len then
      match wcscasecmp (wstr_at data len i) search 0 with
      | none => .oob
      | some r =>
        if r = 0 then
          match memcpy len (wchar_bytes replace) i data with
          | .ok data1 => efi_patch_bcd_loop len n (i + 1) data1
          | other => other
        else
          efi_patch_bcd_loop len n (i + 1) data
    else .ok data

/-- Patch BCD file: `efi_patch_bcd ( vfile, data, offset, len )`.  The
`size_t` sum `i + sizeof ( search )` cannot wrap while the loop runs, since
`i < len` there, so it is taken over `Nat`. -/
def efi_patch_bcd (cmdline_rawbcd : Bool) (data : List Nat) (_offset len : Nat) : Mem :=
  if cmdline_rawbcd then .ok data
  else efi_patch_bcd_loop len len 0 data

/-- A case-insensitive UTF-16LE `.exe` in the 8 bytes at index `i` of a
byte view `f`. -/
def exe_at (f : Nat → Option Nat) (i : Nat) : Prop :=
  f i = some 46 ∧ f (i + 1) = some 0 ∧
  (f (i + 2) = some 101 ∨ f (i + 2) = some 69) ∧ f (i + 3) = some 0 ∧
  (f (i + 4) = some 120 ∨ f (i + 4) = some 88) ∧ f (i + 5) = some 0 ∧
  (f (i + 6) = some 101 ∨ f (i + 6) = some 69) ∧ f (i + 7) = some 0

/-- A NUL code unit in the 2 bytes at index `i + 8`: the wide string that
starts at `i` ends after four code units. -/
def nul_after (f : Nat → Option Nat) (i : Nat) : Prop :=
  f (i + 8) = some 0 ∧ f (i + 9) = some 0

/-- What `wcscasecmp ( data + i, search ) == 0` recognises. -/
def hit (f : Nat → Option Nat) (i : Nat) : Prop :=
  exe_at f i ∧ nul_after f i

instance (f : Nat → Option Nat) (i : Nat) : Decidable (exe_at f i) := by
  unfold exe_at; infer_instance

instance (f : Nat → Option Nat) (i : Nat) : Decidable (nul_after f i) := by
  unfold nul_after; infer_instance

instance (f : Nat → Option Nat) (i : Nat) : Decidable (hit f i) := by
  unfold hit; infer_instance

/-- The byte view of a buffer. -/
def view (data : List Nat) : Nat → Option Nat := fun q => data[q]?

/-- A UTF-16LE `.efi` in the 8 bytes at index `i` of a byte view `f`. -/
def efi_at (f : Nat → Option Nat) (i : Nat) : Prop :=
  f i = some 46 ∧ f (i + 1) = some 0 ∧ f (i + 2) = some 101 ∧ f (i + 3) = some 0 ∧
  f (i + 4) = some 102 ∧ f (i + 5) = some 0 ∧ f (i + 6) = some 105 ∧ f (i + 7) = some 0

instance (f : Nat → Option Nat) (i : Nat) : Decidable (efi_at f i) := by
  unfold efi_at; infer_instance

/-! ## Part 2: handle enumeration, volume discovery, directory walk -/

/-- Code units of a wide string literal, without the terminating NUL. -/
def L (s : String) : List Nat := s.toList.map Char.toNat

/-- The marker file name, `#define HDA_SGN_FILE L"_.QEMU_HDA._"`. -/
def HDA_SGN_FILE : List Nat := L "_.QEMU_HDA._"

/-- Path of `bootmgfw.efi` within WIM. -/
def bootmgfw_path : List Nat := L "\\Windows\\Boot\\EFI\\bootmgfw.efi"

/-- Other paths within WIM (the list before its `NULL` terminator). -/
def efi_wim_paths : List (List Nat) :=
  [ L "\\Windows\\Boot\\DVD\\EFI\\boot.sdi",
    L "\\Windows\\Boot\\DVD\\EFI\\BCD",
    L "\\Windows\\Boot\\Fonts\\segmono_boot.ttf",
    L "\\Windows\\Boot\\Fonts\\segoen_slboot.ttf",
    L "\\Windows\\Boot\\Fonts\\segoe_slboot.ttf",
    L "\\Windows\\Boot\\Fonts\\wgl4_boot.ttf",
    L "\\sms\\boot\\boot.sdi" ]

/-- Status `EFI_SUCCESS` (`efi.h` is not under `src/`): the value 0, against
which the source itself tests the statuses of the file system calls. -/
def EFI_SUCCESS : Nat := 0

/-- Constants of `efi.h`, `vdisk.h` and `cmdline.h`, none of which is under
`src/`; they are parameters of the embedding. -/
structure Platform where
  sizeof_EFI_HANDLE : Nat
  EFI_BUFFER_TOO_SMALL : Nat
  EFI_FILE_DIRECTORY : Nat
  EFI_REMOVABLE_MEDIA_FILE_NAME : List Nat
  VDISK_NAME_LEN : Nat
  cmdline_index : Nat

/-- Read callbacks handed to the virtual disk. -/
inductive ReadFn where
  | efi_read_file
  | wim_read_file
  deriving DecidableEq, Repr

/-- Patch callbacks handed to the virtual disk. -/
inductive PatchFn where
  | efi_patch_bcd
  | patch_wim
  deriving DecidableEq, Repr

/-- Modelled from the spec: `struct vdisk_file` is declared in `vdisk.h`,
which is not under `src/`.  A virtual file is a name, a content source, a
declared size, a read path and an ordered list of patch transforms. -/
structure vdisk_file where
  name : List Nat
  content : Nat
  len : Nat
  read : ReadFn
  patch : List PatchFn
  deriving DecidableEq, Repr

/-- Calls made to the firmware and to the collaborators, in program order. -/
inductive Event where
  | AllocatePool (size : Nat)
  | FreePool
  | LocateHandle (buffer_size : Nat)
  | OpenProtocol (handle : Nat)
  | OpenVolume (handle : Nat)
  | CloseProtocol (handle : Nat)
  | Open (handle : Nat) (name : List Nat)
  | Read (handle : Nat)
  | vdisk_add_file (name : List Nat) (content len : Nat) (read : ReadFn)
  | vdisk_patch_file (file : Nat) (patch : PatchFn)
  | wim_add_file (file index : Nat) (path wname : List Nat)
  | wim_add_files (file index : Nat) (paths : List (List Nat))
  | die (msg : String)
  deriving DecidableEq, Repr

/-- Program state: the virtual file registry, the globals `bootmgfw` and
`bootwim` (a registry index, or `none` for `NULL`), and the event log. -/
structure State where
  files : List vdisk_file
  bootmgfw : Option Nat
  bootwim : Option Nat
  log : List Event
  deriving DecidableEq, Repr

/-- How a call ends: it returns, it reaches `die ()`, it dereferences a null
buffer, or it is still running when the recorded firmware answers (or the
iteration budget) are used up. -/
inductive Outcome (α : Type) where
  | ret (v : α) (st : State)
  | die (st : State)
  | fault (st : State)
  | pending (st : State)
  deriving DecidableEq, Repr

/-- State in which a call ended. -/
def Outcome.state {α : Type} : Outcome α → State
  | .ret _ st => st
  | .die st => st
  | .fault st => st
  | .pending st => st

/-- Append one event to the log. -/
def State.emit (st : State) (e : Event) : State :=
  { st with log := st.log ++ [e] }

/-- Append events to the log. -/
def State.emits (st : State) (es : List Event) : State :=
  { st with log := st.log ++ es }

/-- Answer of the firmware to one `LocateHandle` call: the status, the
value written back to `buffer_size`, and the buffer contents. -/
structure LocateResp where
  status : Nat
  buffer_size : Nat
  handles : Nat → Nat

/-- Answer of the firmware to one `root->Read` call. -/
structure ReadResp where
  efirc : Nat
  size : Nat
  Attribute : Nat
  FileName : List Nat
  FileSize : Nat
  deriving DecidableEq, Repr

/-- The firmware.  `AllocatePool` and `LocateHandle` are indexed by the
number of the call inside `efi_locate_handle` and by the size passed in;
the volume calls are indexed by the device handle; `Read` lists the
successive answers of `root->Read` on that volume. -/
structure Firmware where
  AllocatePool : Nat → Nat → Nat × Nat
  LocateHandle : Nat → Nat → LocateResp
  OpenProtocol : Nat → Nat
  OpenVolume : Nat → Nat
  Open : Nat → List Nat → Nat × Nat
  Read : Nat → List ReadResp

/-- Modelled from the spec: the archive collaborator (`wimfile.c`) is not
under `src/`.  An archive answers a lookup of an image index and an
internal path with the content source and size of that entry, if present. -/
structure Archive where
  lookup : Nat → List Nat → Option (Nat × Nat)

/-- The call `die ( msg )`: emit the message and terminate. -/
def die {α : Type} (st : State) (msg : String) : Outcome α :=
  .die (st.emit (.die msg))

/-- Modelled from the spec: the 8-bit name under which a wide name is
registered, narrowed and bounded to `VDISK_NAME_LEN` characters
(`snprintf ( name, sizeof ( name ), "%ls", wname )`). -/
def narrow_name (P : Platform) (wname : List Nat) : List Nat :=
  (wname.take P.VDISK_NAME_LEN).map (fun c => c % 256)

/-- Modelled from the spec: `vdisk_add_file` (`vdisk.c`, not under `src/`)
registers a file and returns a reference to it; names are not
deduplicated.  The reference is the index in the registry. -/
def vdisk_add_file (st : State) (name : List Nat) (content len : Nat) (read : ReadFn) :
    Nat × State :=
  (st.files.length,
    { (st.emit (.vdisk_add_file name content len read)) with
      files := st.files ++ [⟨name, content, len, read, []⟩] })

/-- Modelled from the spec: `vdisk_patch_file` (`vdisk.h`, not under `src/`)
appends a transform to the patch chain of a registered file. -/
def vdisk_patch_file (st : State) (file : Nat) (patch : PatchFn) : State :=
  { (st.emit (.vdisk_patch_file file patch)) with
    files := st.files.modify (fun f => { f with patch := f.patch ++ [patch] }) file }

/-- Modelled from the spec: `wim_add_file` (`wimfile.c`, not under `src/`)
extracts one internal path into the registry under the given output name
and returns the new file, or `NULL` when the path is absent. -/
def wim_add_file (P : Platform) (wim : Archive) (st : State) (file index : Nat)
    (path wname : List Nat) : Option Nat × State :=
  let st1 := st.emit (.wim_add_file file index path wname)
  match wim.lookup index path with
  | none => (none, st1)
  | some (content, len) =>
    let r := vdisk_add_file st1 (narrow_name P wname) content len .wim_read_file
    (some r.1, r.2)

/-- Registry effect of extracting a list of paths, best effort. -/
def wim_add_files_each (P : Platform) (wim : Archive) (index : Nat) :
    List (List Nat) → State → State
  | [], st => st
  | path :: paths, st =>
    match wim.lookup index path with
    | none => wim_add_files_each P wim index paths st
    | some (content, len) =>
      wim_add_files_each P wim index paths
        (vdisk_add_file st (narrow_name P path) content len .wim_read_file).2

/-- Modelled from the spec: `wim_add_files` (`wimfile.c`, not under `src/`)
extracts a list of internal paths, silently dropping the missing ones.  The
spec leaves the output names open; the internal path is used. -/
def wim_add_files (P : Platform) (wim : Archive) (st : State) (file index : Nat)
    (paths : List (List Nat)) : State :=
  wim_add_files_each P wim index paths (st.emit (.wim_add_files file index paths))

/-- The loop of `efi_bootarch`: `bootarch` is moved behind every backslash
met while `tmp` runs over the full name. -/
def efi_bootarch_loop : List Nat → List Nat → List Nat
  | [], bootarch => bootarch
  | c :: tmp, bootarch =>
    if c = 92 then efi_bootarch_loop tmp tmp else efi_bootarch_loop tmp bootarch

/-- Get architecture-specific boot filename. -/
def efi_bootarch (P : Platform) : List Nat :=
  efi_bootarch_loop P.EFI_REMOVABLE_MEDIA_FILE_NAME P.EFI_REMOVABLE_MEDIA_FILE_NAME

/-- A wide string held in memory, as seen by `wcscasecmp`: its code units,
then NUL. -/
def wstr (s : List Nat) : Nat → Option Nat :=
  fun k => some (s.getD k 0)

/-- The test `wcscasecmp ( a, b ) == 0` on two wide strings. -/
def wcs_equal (a b : List Nat) : Bool :=
  wcscasecmp (wstr a) b 0 = some 0

/-- Allocation `efi_malloc ( size )`, as call number `n` to `AllocatePool`. -/
def efi_malloc (fw : Firmware) (st : State) (n size : Nat) : Outcome Nat :=
  let st1 := st.emit (.AllocatePool size)
  let r := fw.AllocatePool n size
  if r.1 ≠ EFI_SUCCESS ∨ r.2 = 0 then
    die st1 "Could not allocate memory.\n"
  else .ret r.2 st1

/-- Release `efi_free ( ptr )`. -/
def efi_free (st : State) : State :=
  st.emit .FreePool

/-- The end of `efi_locate_handle`, from the test of the final status on. -/
def efi_locate_handle_finish (P : Platform) (st : State) (num_handles : Nat)
    (r : LocateResp) : Outcome (Option (Nat → Nat) × Nat) :=
  if r.status ≠ EFI_SUCCESS then
    .ret (none, num_handles) (efi_free st)
  else
    .ret (some r.handles, r.buffer_size / P.sizeof_EFI_HANDLE) st

/-- Enumeration `efi_locate_handle ( protocol, &num_handles )`: the returned buffer
(`none` for a null pointer) and the value left in `num_handles`. -/
def efi_locate_handle (P : Platform) (fw : Firmware) (st : State) (num_handles : Nat) :
    Outcome (Option (Nat → Nat) × Nat) :=
  let buffer_size := 16 * P.sizeof_EFI_HANDLE
  match efi_malloc fw st 0 buffer_size with
  | .ret _ st1 =>
    let r1 := fw.LocateHandle 0 buffer_size
    let st2 := st1.emit (.LocateHandle buffer_size)
    if r1.status = P.EFI_BUFFER_TOO_SMALL then
      let st3 := efi_free st2
      match efi_malloc fw st3 1 r1.buffer_size with
      | .ret _ st4 =>
        let r2 := fw.LocateHandle 1 r1.buffer_size
        let st5 := st4.emit (.LocateHandle r1.buffer_size)
        efi_locate_handle_finish P st5 num_handles r2
      | .die s => .die s
      | .fault s => .fault s
      | .pending s => .pending s
    else
      efi_locate_handle_finish P st2 num_handles r1
  | .die s => .die s
  | .fault s => .fault s
  | .pending s => .pending s

/-- The test for special-case files: the name is the architecture-specific
boot file name or `bootmgfw.efi`. -/
def is_bootmgfw_name (P : Platform) (wname : List Nat) : Bool :=
  wcs_equal wname (efi_bootarch P) || wcs_equal wname (L "bootmgfw.efi")

/-- The end of one iteration of the directory loop: "Add file" and "Check
for special-case files", for an entry that was opened as `file`. -/
def add_entry (P : Platform) (st : State) (info : ReadResp) (file : Nat) : State :=
  let r := vdisk_add_file st (narrow_name P info.FileName) file info.FileSize .efi_read_file
  if is_bootmgfw_name P info.FileName then
    { r.2 with bootmgfw := some r.1 }
  else if wcs_equal info.FileName (L "BCD") then
    vdisk_patch_file r.2 r.1 .efi_patch_bcd
  else r.2

/-- Read root directory: the `while ( 1 )` loop of `extract_by_handle`,
run against the successive answers of `root->Read`. -/
def read_root_directory (P : Platform) (fw : Firmware) (handle : Nat) :
    List ReadResp → State → Outcome Unit
  | [], st => .pending st
  | info :: rest, st =>
    let st1 := st.emit (.Read handle)
    if info.efirc ≠ 0 then
      die st1 "Could not read root directory: %#lx\n"
    else if info.size = 0 then
      .ret () st1
    else if info.Attribute &&& P.EFI_FILE_DIRECTORY ≠ 0 then
      read_root_directory P fw handle rest st1
    else
      let st2 := st1.emit (.Open handle info.FileName)
      let r := fw.Open handle info.FileName
      if r.1 ≠ 0 then
        die st2 "Could not open \"%ls\": %#lx\n"
      else
        read_root_directory P fw handle rest (add_entry P st2 info r.2)

/-- Process WIM image. -/
def process_wim (P : Platform) (wim : Archive) (st : State) : State :=
  match st.bootwim with
  | none => st
  | some bootwim =>
    let st1 := vdisk_patch_file st bootwim .patch_wim
    let st2 :=
      match st1.bootmgfw with
      | some _ => st1
      | none =>
        let r := wim_add_file P wim st1 bootwim P.cmdline_index bootmgfw_path
          (efi_bootarch P)
        { r.2 with bootmgfw := r.1 }
    wim_add_files P wim st2 bootwim P.cmdline_index efi_wim_paths

/-- Check that we have a boot file, and the final `return 0`. -/
def check_boot_file (st : State) : Outcome Int :=
  match st.bootmgfw with
  | none => die st "FATAL: no %ls or bootmgfw.efi found\n"
  | some _ => .ret 0 st

/-- The part of `extract_by_handle` that runs once the marker file has
opened: directory walk, archive processing, boot file check. -/
def extract_confirmed (P : Platform) (fw : Firmware) (wim : Archive) (st : State)
    (handle : Nat) : Outcome Int :=
  match read_root_directory P fw handle (fw.Read handle) st with
  | .ret _ st1 => check_boot_file (process_wim P wim st1)
  | .die s => .die s
  | .fault s => .fault s
  | .pending s => .pending s

/-- Probe one handle and extract its volume: `extract_by_handle ( handle )`. -/
def extract_by_handle (P : Platform) (fw : Firmware) (wim : Archive) (st : State)
    (handle : Nat) : Outcome Int :=
  let st1 := st.emit (.OpenProtocol handle)
  if fw.OpenProtocol handle ≠ 0 then .ret (-1) st1
  else
    let st2 := st1.emit (.OpenVolume handle)
    if fw.OpenVolume handle ≠ 0 then .ret (-1) st2
    else
      let st3 := st2.emit (.CloseProtocol handle)
      let st4 := st3.emit (.Open handle HDA_SGN_FILE)
      if (fw.Open handle HDA_SGN_FILE).1 ≠ 0 then .ret (-1) st4
      else extract_confirmed P fw wim st4 handle

/-- The `for` loop of `efi_extract_hda` and the `die` behind it.  The first
argument bounds the number of iterations. -/
def efi_extract_hda_loop (P : Platform) (fw : Firmware) (wim : Archive)
    (buffer : Option (Nat → Nat)) (num_handles : Nat) : Nat → Nat → State → Outcome Unit
  | 0, i, st =>
    if i < num_handles then .pending st else die st "FATAL: hda not found\n"
  | n + 1, i, st =>
    if i < num_handles then
      match buffer with
      | none => .fault st
      | some b =>
        match extract_by_handle P fw wim st (b i) with
        | .ret v st1 =>
          if v = 0 then .ret () st1
          else efi_extract_hda_loop P fw wim buffer num_handles n (i + 1) st1
        | .die s => .die s
        | .fault s => .fault s
        | .pending s => .pending s
    else die st "FATAL: hda not found\n"

/-- Discovery entry point `efi_extract_hda ()`. -/
def efi_extract_hda (P : Platform) (fw : Firmware) (wim : Archive) (st : State) :
    Outcome Unit :=
  match efi_locate_handle P fw st 0 with
  | .ret r st1 => efi_extract_hda_loop P fw wim r.1 r.2 r.2 0 st1
  | .die s => .die s
  | .fault s => .fault s
  | .pending s => .pending s

/-! ### Vocabulary of the theorems -/

/-- Buffer sizes passed to `LocateHandle`, in call order. -/
def locate_calls (log : List Event) : List Nat :=
  log.filterMap (fun e => match e with
    | .LocateHandle s => some s
    | _ => none)

/-- Sizes passed to `AllocatePool`, in call order. -/
def alloc_calls (log : List Event) : List Nat :=
  log.filterMap (fun e => match e with
    | .AllocatePool s => some s
    | _ => none)

/-- The first answer of the firmware to `LocateHandle`. -/
def locate_first (P : Platform) (fw : Firmware) : LocateResp :=
  fw.LocateHandle 0 (16 * P.sizeof_EFI_HANDLE)

/-- The answer whose status `efi_locate_handle` tests last: the second one
when the first reported `EFI_BUFFER_TOO_SMALL`, the first one otherwise. -/
def locate_final (P : Platform) (fw : Firmware) : LocateResp :=
  if (locate_first P fw).status = P.EFI_BUFFER_TOO_SMALL then
    fw.LocateHandle 1 (locate_first P fw).buffer_size
  else locate_first P fw

/-- Call `n` of `AllocatePool`, for `size` bytes, succeeds with a non-null pointer. -/
def alloc_ok (fw : Firmware) (n size : Nat) : Prop :=
  (fw.AllocatePool n size).1 = EFI_SUCCESS ∧ (fw.AllocatePool n size).2 ≠ 0

instance (fw : Firmware) (n size : Nat) : Decidable (alloc_ok fw n size) := by
  unfold alloc_ok; infer_instance

/-- The entry carries the `EFI_FILE_DIRECTORY` attribute. -/
def is_dir (P : Platform) (info : ReadResp) : Bool :=
  info.Attribute &&& P.EFI_FILE_DIRECTORY ≠ 0

/-- Every answer in `pre` is a successful read of a non-empty entry, and
every entry that is not a directory opens. -/
def walk_ok (P : Platform) (fw : Firmware) (handle : Nat) (pre : List ReadResp) : Prop :=
  ∀ info ∈ pre, info.efirc = 0 ∧ info.size ≠ 0 ∧
    (is_dir P info = false → (fw.Open handle info.FileName).1 = 0)

instance (P : Platform) (fw : Firmware) (handle : Nat) (pre : List ReadResp) :
    Decidable (walk_ok P fw handle pre) := by
  unfold walk_ok; infer_instance

/-- A successful read that reports size 0: the end of the directory. -/
def is_end (info : ReadResp) : Prop :=
  info.efirc = 0 ∧ info.size = 0

instance (info : ReadResp) : Decidable (is_end info) := by
  unfold is_end; infer_instance

/-- State after one iteration of the directory loop on an entry of a
well-behaved prefix (see `walk_ok`). -/
def walk_step (P : Platform) (fw : Firmware) (handle : Nat) (st : State)
    (info : ReadResp) : State :=
  if is_dir P info then st.emit (.Read handle)
  else
    add_entry P ((st.emit (.Read handle)).emit (.Open handle info.FileName)) info
      (fw.Open handle info.FileName).2

/-- The registry record created for a directory entry opened as `file`. -/
def entry_record (P : Platform) (info : ReadResp) (file : Nat) : vdisk_file :=
  ⟨narrow_name P info.FileName, file, info.FileSize, .efi_read_file,
    if is_bootmgfw_name P info.FileName then []
    else if wcs_equal info.FileName (L "BCD") then [.efi_patch_bcd] else []⟩

/-- The event is a call of `vdisk_add_file`. -/
def is_vdisk_add : Event → Bool
  | .vdisk_add_file _ _ _ _ => true
  | _ => false

/-- The entries of `pre` that are not directories. -/
def plain_files (P : Platform) (pre : List ReadResp) : List ReadResp :=
  pre.filter (fun info => !is_dir P info)

/-! ### A concrete scenario, used to instantiate the theorems -/

/-- A 64-bit platform booting `\EFI\BOOT\BOOTX64.EFI`. -/
def demo_platform : Platform :=
  ⟨8, 0x8000000000000005, 0x10, L "\\EFI\\BOOT\\BOOTX64.EFI", 31, 1⟩

/-- Entries read before the last loader name: a directory and `bootmgfw.efi`. -/
def demo_before : List ReadResp :=
  [⟨0, 100, 0x10, L "EFI", 0⟩, ⟨0, 100, 0, L "bootmgfw.efi", 1000⟩]

/-- The last entry with a loader name. -/
def demo_loader : ReadResp := ⟨0, 100, 0, L "BootX64.efi", 3000⟩

/-- Entries read after it: the BCD and the marker file. -/
def demo_after : List ReadResp :=
  [⟨0, 100, 0x20, L "bcd", 2000⟩, ⟨0, 100, 0, L "_.QEMU_HDA._", 0⟩]

/-- The end-of-directory answer. -/
def demo_end : ReadResp := ⟨0, 0, 0, [], 0⟩

/-- What the firmware would answer after the end of the directory. -/
def demo_beyond : List ReadResp := [⟨0, 100, 0, L "never-read", 5⟩]

/-- A root directory without any loader name: the BCD and the marker file. -/
def demo_plain : List ReadResp :=
  [⟨0, 100, 0x20, L "BCD", 2000⟩, ⟨0, 100, 0, L "_.QEMU_HDA._", 0⟩]

/-- The candidates written by the firmware: 10, 20, 30, ... -/
def demo_handles : Nat → Nat := fun i => 10 * (i + 1)

/-- The first `LocateHandle` asks for a 24-byte buffer, the second one
returns the three handles 10, 20, 30.  There is no file system on 10, and
the marker file opens on 20 (and on 40, which is not enumerated) only. -/
def demo_firmware : Firmware where
  AllocatePool := fun _ _ => (0, 4096)
  LocateHandle := fun n _ =>
    if n = 0 then ⟨0x8000000000000005, 24, fun _ => 0⟩ else ⟨0, 24, demo_handles⟩
  OpenProtocol := fun h => if h = 10 then 3 else 0
  OpenVolume := fun _ => 0
  Open := fun h name => if h = 20 ∨ h = 40 then (0, 100 + name.length) else (14, 0)
  Read := fun h =>
    if h = 20 then demo_before ++ demo_loader :: demo_after ++ demo_end :: demo_beyond
    else if h = 40 then demo_plain ++ demo_end :: demo_beyond
    else []

/-- The same firmware, except that no file opens on any volume. -/
def demo_firmware_bare : Firmware :=
  { demo_firmware with Open := fun _ _ => (14, 0) }

/-- An archive without any of the paths asked for. -/
def demo_archive : Archive := ⟨fun _ _ => none⟩

/-- Initial state: empty registry, `bootmgfw` and `bootwim` null. -/
def demo_state : State := ⟨[], none, none, []⟩

/-- Events the directory walk on volume `h` can log. -/
def walk_event (h : Nat) : Event → Bool
  | .Read h1 => h1 = h
  | .Open h1 _ => h1 = h
  | .vdisk_add_file _ _ _ _ => true
  | .vdisk_patch_file _ _ => true
  | .die _ => true
  | _ => false

/-- Events `extract_by_handle` can log once volume `h` is confirmed: those
of the walk and the calls to the archive collaborator. -/
def volume_event (h : Nat) : Event → Bool
  | .wim_add_file _ _ _ _ => true
  | .wim_add_files _ _ _ => true
  | e => walk_event h e

/-- The events contain a `wim_add_file` call for the boot-manager path. -/
def queries_bootmgfw (evs : List Event) : Bool :=
  evs.any (fun e => match e with
    | .wim_add_file _ _ path _ => path = bootmgfw_path
    | _ => false)

/-- Events logged by the probing part of `extract_by_handle` on a handle:
up to the first failing call, or up to the attempt to open the marker file. -/
def probe_events (fw : Firmware) (h : Nat) : List Event :=
  if fw.OpenProtocol h ≠ 0 then [.OpenProtocol h]
  else if fw.OpenVolume h ≠ 0 then [.OpenProtocol h, .OpenVolume h]
  else [.OpenProtocol h, .OpenVolume h, .CloseProtocol h, .Open h HDA_SGN_FILE]

/-- Events of probing the candidates `buffer[i]`, ..., `buffer[i + cnt - 1]`,
in that order. -/
def probes (fw : Firmware) (buffer : Nat → Nat) : Nat → Nat → List Event
  | _, 0 => []
  | i, cnt + 1 => probe_events fw (buffer i) ++ probes fw buffer (i + 1) cnt

/-- The marker file opens on the handle: the file system protocol, the
root directory and `HDA_SGN_FILE` all open. -/
def marker_opens (fw : Firmware) (h : Nat) : Prop :=
  fw.OpenProtocol h = 0 ∧ fw.OpenVolume h = 0 ∧ (fw.Open h HDA_SGN_FILE).1 = 0

instance (fw : Firmware) (h : Nat) : Decidable (marker_opens fw h) := by
  unfold marker_opens; infer_instance

/-- What `efi_extract_hda` makes of the result of `extract_by_handle` on an
accepted candidate. -/
def accept : Outcome Int → Outcome Unit
  | .ret _ st => .ret () st
  | .die st => .die st
  | .fault st => .fault st
  | .pending st => .pending st

/-- State in which `boot.wim` is registered as file 0 and `bootwim` is set. -/
def demo_state_wim : State :=
  ⟨[⟨L "boot.wim", 1, 5000, .efi_read_file, []⟩], none, some 0, []⟩

/-- State after the enumeration of the scenario. -/
def demo_located : State :=
  demo_state.emits [.AllocatePool 128, .LocateHandle 128, .FreePool, .AllocatePool 24,
    .LocateHandle 24]

theorem towupper_eq_46 (w : Nat) : towupper w = 46 ↔ w = 46 := by
  unfold towupper; split_ifs <;> omega

theorem towupper_eq_69 (w : Nat) : towupper w = 69 ↔ (w = 101 ∨ w = 69) := by
  unfold towupper; split_ifs <;> omega

theorem towupper_eq_88 (w : Nat) : towupper w = 88 ↔ (w = 120 ∨ w = 88) := by
  unfold towupper; split_ifs <;> omega

theorem towupper_eq_0 (w : Nat) : towupper w = 0 ↔ w = 0 := by
  unfold towupper; split_ifs <;> omega

theorem read_wchar_eq (data : List Nat) (len p : Nat) (lo hi : Nat) (h : p + 1 < len)
    (h0 : data[p]? = some lo) (h1 : data[p + 1]? = some hi) :
    read_wchar data len p = some (lo + 256 * hi) := by
  have hp : p < len := by omega
  simp [read_wchar, read_byte, h, hp, h0, h1]

theorem view_some (data : List Nat) (q : Nat) (h : q < data.length) :
    view data q = some (data.getD q 0) := by
  simp [view, List.getElem?_eq_getElem h, List.getD_eq_getElem _ _ h]

theorem wstr_at_eq (data : List Nat) (len i k p q : Nat) (hp : p = i + 2 * k)
    (hq : q = p + 1) (h : q < len) (hl : len ≤ data.length) :
    wstr_at data len i k = some (data.getD p 0 + 256 * data.getD q 0) := by
  subst hp hq
  unfold wstr_at sizeof_wchar_t
  apply read_wchar_eq _ _ _ _ _ h
  · exact view_some data _ (by omega)
  · exact view_some data _ (by omega)

theorem wcscasecmp_chain (str1 : Nat → Option Nat) (w0 w1 w2 w3 w4 : Nat)
    (e0 : str1 0 = some w0) (e1 : str1 1 = some w1) (e2 : str1 2 = some w2)
    (e3 : str1 3 = some w3) (e4 : str1 4 = some w4) :
    ∃ r, wcscasecmp str1 search 0 = some r ∧
      (r = 0 ↔ towupper w0 = 46 ∧ towupper w1 = 69 ∧ towupper w2 = 88 ∧
        towupper w3 = 69 ∧ towupper w4 = 0) := by
  have t46 : towupper 46 = 46 := by decide
  have t101 : towupper 101 = 69 := by decide
  have t120 : towupper 120 = 88 := by decide
  have t0 : towupper 0 = 0 := by decide
  simp only [wcscasecmp, search, e0, e1, e2, e3, e4, t46, t101, t120, t0]
  generalize towupper w0 = u0
  generalize towupper w1 = u1
  generalize towupper w2 = u2
  generalize towupper w3 = u3
  generalize towupper w4 = u4
  clear e0 e1 e2 e3 e4 t46 t101 t120 t0
  split_ifs with c0 c1 c2 c3
  all_goals refine ⟨_, rfl, ?_⟩
  all_goals omega

/-- On a window that holds the ten bytes at `i`, `wcscasecmp` against
`search` answers, and answers 0 exactly on a NUL-terminated `.exe`. -/
theorem wcscasecmp_search (data : List Nat) (len i : Nat) (h : i + 10 ≤ len)
    (hl : len ≤ data.length) :
    ∃ r, wcscasecmp (wstr_at data len i) search 0 = some r ∧
      (r = 0 ↔ hit (view data) i) := by
  have e0 := wstr_at_eq data len i 0 i (i + 1) (by omega) rfl (by omega) hl
  have e1 := wstr_at_eq data len i 1 (i + 2) (i + 3) (by omega) rfl (by omega) hl
  have e2 := wstr_at_eq data len i 2 (i + 4) (i + 5) (by omega) rfl (by omega) hl
  have e3 := wstr_at_eq data len i 3 (i + 6) (i + 7) (by omega) rfl (by omega) hl
  have e4 := wstr_at_eq data len i 4 (i + 8) (i + 9) (by omega) rfl (by omega) hl
  have v0 := view_some data i (by omega)
  have v1 := view_some data (i + 1) (by omega)
  have v2 := view_some data (i + 2) (by omega)
  have v3 := view_some data (i + 3) (by omega)
  have v4 := view_some data (i + 4) (by omega)
  have v5 := view_some data (i + 5) (by omega)
  have v6 := view_some data (i + 6) (by omega)
  have v7 := view_some data (i + 7) (by omega)
  have v8 := view_some data (i + 8) (by omega)
  have v9 := view_some data (i + 9) (by omega)
  generalize data.getD i 0 = b0 at *
  generalize data.getD (i + 1) 0 = b1 at *
  generalize data.getD (i + 2) 0 = b2 at *
  generalize data.getD (i + 3) 0 = b3 at *
  generalize data.getD (i + 4) 0 = b4 at *
  generalize data.getD (i + 5) 0 = b5 at *
  generalize data.getD (i + 6) 0 = b6 at *
  generalize data.getD (i + 7) 0 = b7 at *
  generalize data.getD (i + 8) 0 = b8 at *
  generalize data.getD (i + 9) 0 = b9 at *
  obtain ⟨r, hr, hz⟩ := wcscasecmp_chain _ _ _ _ _ _ e0 e1 e2 e3 e4
  refine ⟨r, hr, ?_⟩
  rw [hz]
  simp only [hit, exe_at, nul_after, v0, v1, v2, v3, v4, v5, v6, v7, v8, v9,
    Option.some.injEq]
  rw [towupper_eq_46, towupper_eq_69, towupper_eq_88, towupper_eq_69, towupper_eq_0]
  clear e0 e1 e2 e3 e4 v0 v1 v2 v3 v4 v5 v6 v7 v8 v9 hr hz
  have a0 : b0 + 256 * b1 = 46 ↔ (b0 = 46 ∧ b1 = 0) := by omega
  have a1 : (b2 + 256 * b3 = 101 ∨ b2 + 256 * b3 = 69) ↔ ((b2 = 101 ∨ b2 = 69) ∧ b3 = 0) := by omega
  have a2 : (b4 + 256 * b5 = 120 ∨ b4 + 256 * b5 = 88) ↔ ((b4 = 120 ∨ b4 = 88) ∧ b5 = 0) := by omega
  have a3 : (b6 + 256 * b7 = 101 ∨ b6 + 256 * b7 = 69) ↔ ((b6 = 101 ∨ b6 = 69) ∧ b7 = 0) := by omega
  have a4 : b8 + 256 * b9 = 0 ↔ (b8 = 0 ∧ b9 = 0) := by omega
  rw [a0, a1, a2, a3, a4]
  simp only [and_assoc]

/-- A copy that fits in the window succeeds, keeps the buffer length, writes
the source bytes and leaves every other byte alone. -/
theorem memcpy_spec (len : Nat) (src : List Nat) :
    ∀ (dest : Nat) (data : List Nat), dest + src.length ≤ len → len ≤ data.length →
      ∃ out, memcpy len src dest data = .ok out ∧ out.length = data.length ∧
        (∀ k, k < src.length → view out (dest + k) = src[k]?) ∧
        (∀ q, (q < dest ∨ dest + src.length ≤ q) → view out q = view data q) := by
  induction src with
  | nil =>
    intro dest data _ _
    exact ⟨data, rfl, rfl, by intro k hk; simp at hk, by intro q _; rfl⟩
  | cons b rest ih =>
    intro dest data h hl
    simp only [List.length_cons] at h
    have hd : dest < len ∧ dest < data.length := by omega
    obtain ⟨out, ho, hlen, hw, hf⟩ :=
      ih (dest + 1) (data.set dest b) (by omega) (by simpa using hl)
    refine ⟨out, ?_, ?_, ?_, ?_⟩
    · simp only [memcpy, hd, and_self, if_true]
      exact ho
    · simpa using hlen
    · intro k hk
      cases k with
      | zero =>
        have := hf dest (Or.inl (by omega))
        rw [Nat.add_zero, this]
        simp [view, List.getElem?_set, hd.2]
      | succ k =>
        have := hw k (by simpa using hk)
        simp only [List.getElem?_cons_succ]
        rw [← this]
        congr 1
        omega
    · intro q hq
      have := hf q (by simp only [List.length_cons] at hq; omega)
      rw [this]
      simp only [view]
      rw [List.getElem?_set_ne]
      simp only [List.length_cons] at hq
      omega

theorem hit_dot (f : Nat → Option Nat) (j : Nat) (h : hit f j) : f j = some 46 := h.1.1

/-- Inside a NUL-terminated `.exe`, no byte after the first is a `.`. -/
theorem hit_no_dot (f : Nat → Option Nat) (i d : Nat) (h : hit f i) (h1 : 1 ≤ d)
    (h9 : d ≤ 9) : f (i + d) ≠ some 46 := by
  obtain ⟨⟨_, a1, a2, a3, a4, a5, a6, a7⟩, a8, a9⟩ := h
  interval_cases d
  · rw [a1]; decide
  · rcases a2 with a2 | a2 <;> rw [a2] <;> decide
  · rw [a3]; decide
  · rcases a4 with a4 | a4 <;> rw [a4] <;> decide
  · rw [a5]; decide
  · rcases a6 with a6 | a6 <;> rw [a6] <;> decide
  · rw [a7]; decide
  · rw [a8]; decide
  · rw [a9]; decide

theorem replace_no_dot (d : Nat) (h1 : 1 ≤ d) (h9 : d ≤ 9) :
    (wchar_bytes replace)[d]? ≠ some 46 := by
  interval_cases d <;> decide

theorem hit_congr (f g : Nat → Option Nat) (j : Nat)
    (h : ∀ k, k < 10 → g (j + k) = f (j + k)) : hit g j ↔ hit f j := by
  have h0 := h 0 (by omega)
  simp only [Nat.add_zero] at h0
  simp only [hit, exe_at, nul_after, h0, h 1 (by omega), h 2 (by omega), h 3 (by omega),
    h 4 (by omega), h 5 (by omega), h 6 (by omega), h 7 (by omega), h 8 (by omega),
    h 9 (by omega)]

/-- After the ten bytes at a match `i` are overwritten with `replace`, the
matches at later positions are those of the old buffer, and they start at
`i + 10` or later. -/
theorem hit_after_patch (f g : Nat → Option Nat) (i : Nat) (hfi : hit f i)
    (hw : ∀ k, k < 10 → g (i + k) = (wchar_bytes replace)[k]?)
    (hfr : ∀ q, (q < i ∨ i + 10 ≤ q) → g q = f q) (j : Nat) (hj : i < j) :
    (hit g j ↔ hit f j) ∧ (hit f j → i + 10 ≤ j) := by
  by_cases hlt : j < i + 10
  · obtain ⟨d, rfl⟩ : ∃ d, j = i + d := ⟨j - i, by omega⟩
    have hg : ¬ hit g (i + d) := by
      intro hh
      have := hit_dot _ _ hh
      rw [hw d (by omega)] at this
      exact replace_no_dot d (by omega) (by omega) this
    have hf : ¬ hit f (i + d) := by
      intro hh
      exact hit_no_dot f i d hfi (by omega) (by omega) (hit_dot _ _ hh)
    exact ⟨⟨fun a => absurd a hg, fun a => absurd a hf⟩, fun a => absurd a hf⟩
  · refine ⟨hit_congr f g j ?_, fun _ => by omega⟩
    intro k _
    exact hfr _ (Or.inr (by omega))

theorem sizeof_search_eq : sizeof_search = 10 := rfl

theorem replace_bytes_length : (wchar_bytes replace).length = 10 := rfl

/-- The scan started at `i` with enough iterations left ends normally; it
rewrites the ten bytes of every NUL-terminated `.exe` of the incoming
buffer that starts at `j ≥ i` with `j + 10 < len`, and changes no byte
outside those matches. -/
theorem efi_patch_bcd_loop_spec (len : Nat) :
    ∀ (n i : Nat) (data : List Nat), len ≤ data.length → len ≤ i + 10 + n →
      ∃ out, efi_patch_bcd_loop len n i data = .ok out ∧ out.length = data.length ∧
        (∀ j, i ≤ j → j + 10 < len → hit (view data) j →
          ∀ k, k < 10 → view out (j + k) = (wchar_bytes replace)[k]?) ∧
        (∀ q, (∀ j, i ≤ j → j + 10 < len → hit (view data) j → j ≤ q → ¬ q < j + 10) →
          view out q = view data q) := by
  intro n
  induction n with
  | zero =>
    intro i data _ hn
    have hc : ¬ (i + 10 < len) := by omega
    refine ⟨data, by simp only [efi_patch_bcd_loop, sizeof_search_eq, hc, if_false], rfl, ?_, ?_⟩
    · intro j hij hjl; omega
    · intro q _; rfl
  | succ n ih =>
    intro i data hl hn
    by_cases hc : i + 10 < len
    · obtain ⟨r, hr, hz⟩ := wcscasecmp_search data len i (by omega) hl
      by_cases r0 : r = 0
      · have hh : hit (view data) i := hz.mp r0
        obtain ⟨d1, hm, hlen1, hw1, hf1⟩ :=
          memcpy_spec len (wchar_bytes replace) i data
            (by rw [replace_bytes_length]; omega) hl
        rw [replace_bytes_length] at hw1 hf1
        obtain ⟨out, ho, hlo, hp, hfr⟩ := ih (i + 1) d1 (by omega) (by omega)
        have key := hit_after_patch (view data) (view d1) i hh hw1 hf1
        refine ⟨out, ?_, hlo.trans hlen1, ?_, ?_⟩
        · simp only [efi_patch_bcd_loop, sizeof_search_eq, hc, if_true, hr, r0, hm]
          exact ho
        · intro j hij hjl hjh k hk
          rcases Nat.eq_or_lt_of_le hij with e | hlt
          · subst e
            rw [← hw1 k hk]
            apply hfr
            intro j1 h1 _ h3 h4 h5
            have := (key j1 (by omega)).2 ((key j1 (by omega)).1.mp h3)
            omega
          · exact hp j (by omega) hjl ((key j hlt).1.mpr hjh) k hk
        · intro q hq
          have e1 : view out q = view d1 q :=
            hfr q (fun j1 h1 h2 h3 h4 =>
              hq j1 (by omega) h2 ((key j1 (by omega)).1.mp h3) h4)
          rw [e1]
          apply hf1
          have := hq i (le_refl i) hc hh
          omega
      · have hh : ¬ hit (view data) i := fun a => r0 (hz.mpr a)
        obtain ⟨out, ho, hlo, hp, hfr⟩ := ih (i + 1) data hl (by omega)
        refine ⟨out, ?_, hlo, ?_, ?_⟩
        · simp only [efi_patch_bcd_loop, sizeof_search_eq, hc, if_true, hr, r0, if_false]
          exact ho
        · intro j hij hjl hjh
          rcases Nat.eq_or_lt_of_le hij with e | hlt
          · subst e; exact absurd hjh hh
          · exact hp j (by omega) hjl hjh
        · intro q hq
          exact hfr q (fun j1 h1 h2 h3 h4 => hq j1 (by omega) h2 h3 h4)
    · refine ⟨data, by simp only [efi_patch_bcd_loop, sizeof_search_eq, hc, if_false], rfl, ?_, ?_⟩
      · intro j hij hjl; omega
      · intro q _; rfl

theorem efi_patch_bcd_loop_done (len n i : Nat) (data : List Nat)
    (h : ¬ (i + sizeof_search < len)) : efi_patch_bcd_loop len n i data = .ok data := by
  cases n <;> simp only [efi_patch_bcd_loop, h, if_false]

/-- Inside a `.exe`, no byte after the first is a `.`. -/
theorem exe_no_dot (f : Nat → Option Nat) (i d : Nat) (h : exe_at f i) (h1 : 1 ≤ d)
    (h7 : d ≤ 7) : f (i + d) ≠ some 46 := by
  obtain ⟨_, a1, a2, a3, a4, a5, a6, a7⟩ := h
  interval_cases d
  · rw [a1]; decide
  · rcases a2 with a2 | a2 <;> rw [a2] <;> decide
  · rw [a3]; decide
  · rcases a4 with a4 | a4 <;> rw [a4] <;> decide
  · rw [a5]; decide
  · rcases a6 with a6 | a6 <;> rw [a6] <;> decide
  · rw [a7]; decide

/-- Specification of a whole call with patching enabled. -/
theorem efi_patch_bcd_spec (data : List Nat) (offset len : Nat) (hl : len ≤ data.length) :
    ∃ out, efi_patch_bcd false data offset len = .ok out ∧ out.length = data.length ∧
      (∀ j, j + 10 < len → hit (view data) j →
        ∀ k, k < 10 → view out (j + k) = (wchar_bytes replace)[k]?) ∧
      (∀ q, (∀ j, j + 10 < len → hit (view data) j → j ≤ q → ¬ q < j + 10) →
        view out q = view data q) := by
  obtain ⟨out, ho, hlen, hp, hf⟩ := efi_patch_bcd_loop_spec len len 0 data hl (by omega)
  refine ⟨out, ?_, hlen, fun j h1 h2 => hp j (Nat.zero_le j) h1 h2, ?_⟩
  · simpa [efi_patch_bcd] using ho
  · intro q hq
    exact hf q (fun j _ h2 h3 h4 => hq j h2 h3 h4)

/-! ### Lemmas on the directory walk -/

theorem modify_last (files : List vdisk_file) (f : vdisk_file) (g : vdisk_file → vdisk_file) :
    (files ++ [f]).modify g files.length = files ++ [g f] := by
  induction files with
  | nil => rfl
  | cons a rest ih => simp [ih]

theorem add_entry_files (P : Platform) (st : State) (info : ReadResp) (file : Nat) :
    (add_entry P st info file).files = st.files ++ [entry_record P info file] := by
  unfold add_entry entry_record vdisk_add_file vdisk_patch_file
  split_ifs <;> simp [State.emit, modify_last]

theorem add_entry_bootmgfw (P : Platform) (st : State) (info : ReadResp) (file : Nat) :
    (add_entry P st info file).bootmgfw
      = if is_bootmgfw_name P info.FileName then some st.files.length else st.bootmgfw := by
  unfold add_entry vdisk_add_file vdisk_patch_file
  split_ifs <;> simp [State.emit]

theorem add_entry_bootwim (P : Platform) (st : State) (info : ReadResp) (file : Nat) :
    (add_entry P st info file).bootwim = st.bootwim := by
  unfold add_entry vdisk_add_file vdisk_patch_file
  split_ifs <;> simp [State.emit]

theorem is_dir_iff (P : Platform) (info : ReadResp) :
    is_dir P info = true ↔ info.Attribute &&& P.EFI_FILE_DIRECTORY ≠ 0 := by
  simp [is_dir]

/-- One iteration on a well-behaved entry. -/
theorem read_root_directory_cons (P : Platform) (fw : Firmware) (handle : Nat)
    (info : ReadResp) (rest : List ReadResp) (st : State)
    (h : walk_ok P fw handle [info]) :
    read_root_directory P fw handle (info :: rest) st
      = read_root_directory P fw handle rest (walk_step P fw handle st info) := by
  obtain ⟨h1, h2, h3⟩ := h info (List.mem_singleton.mpr rfl)
  by_cases hd : is_dir P info = true
  · have hd1 := (is_dir_iff P info).mp hd
    simp only [read_root_directory, h1, h2, hd1, walk_step, hd, ne_eq, not_true_eq_false,
      not_false_eq_true, if_true, if_false]
  · have hd1 : ¬ (info.Attribute &&& P.EFI_FILE_DIRECTORY ≠ 0) :=
      fun a => hd ((is_dir_iff P info).mpr a)
    have h4 := h3 (by simpa using hd)
    simp only [read_root_directory, h1, h2, hd1, walk_step, hd, h4, ne_eq, not_true_eq_false,
      if_false, Bool.false_eq_true]

/-- The walk over a well-behaved run of entries is the fold of `walk_step`. -/
theorem read_root_directory_append (P : Platform) (fw : Firmware) (handle : Nat)
    (pre : List ReadResp) :
    ∀ (rest : List ReadResp) (st : State), walk_ok P fw handle pre →
      read_root_directory P fw handle (pre ++ rest) st
        = read_root_directory P fw handle rest (pre.foldl (walk_step P fw handle) st) := by
  induction pre with
  | nil => intro rest st _; rfl
  | cons info pre ih =>
    intro rest st h
    have h1 : walk_ok P fw handle [info] := by
      intro x hx
      exact h x (by simp only [List.mem_singleton] at hx; simp [hx])
    have h2 : walk_ok P fw handle pre := fun x hx => h x (List.mem_cons_of_mem _ hx)
    rw [List.cons_append, read_root_directory_cons P fw handle info _ st h1, ih rest _ h2]
    rfl

/-- The walk stops, and returns, at a successful read of size 0. -/
theorem read_root_directory_end (P : Platform) (fw : Firmware) (handle : Nat)
    (z : ReadResp) (post : List ReadResp) (st : State) (hz : is_end z) :
    read_root_directory P fw handle (z :: post) st = .ret () (st.emit (.Read handle)) := by
  simp only [read_root_directory, hz.1, hz.2, ne_eq, not_true_eq_false, if_false, if_true]

theorem walk_step_files (P : Platform) (fw : Firmware) (handle : Nat) (st : State)
    (info : ReadResp) :
    (walk_step P fw handle st info).files
      = st.files ++ (plain_files P [info]).map
          (fun i => entry_record P i (fw.Open handle i.FileName).2) := by
  unfold walk_step plain_files
  by_cases hd : is_dir P info = true
  · simp [hd, State.emit]
  · simp [hd, add_entry_files, State.emit]

theorem walk_files (P : Platform) (fw : Firmware) (handle : Nat) (pre : List ReadResp) :
    ∀ st : State, (pre.foldl (walk_step P fw handle) st).files
      = st.files ++ (plain_files P pre).map
          (fun i => entry_record P i (fw.Open handle i.FileName).2) := by
  induction pre with
  | nil => intro st; simp [plain_files]
  | cons info pre ih =>
    intro st
    rw [List.foldl_cons, ih, walk_step_files]
    simp [plain_files, List.filter_cons]
    split_ifs <;> simp

theorem walk_bootwim (P : Platform) (fw : Firmware) (handle : Nat) (pre : List ReadResp) :
    ∀ st : State, (pre.foldl (walk_step P fw handle) st).bootwim = st.bootwim := by
  induction pre with
  | nil => intro st; rfl
  | cons info pre ih =>
    intro st
    rw [List.foldl_cons, ih]
    unfold walk_step
    split_ifs
    · rfl
    · rw [add_entry_bootwim]; rfl

theorem walk_step_bootmgfw (P : Platform) (fw : Firmware) (handle : Nat) (st : State)
    (info : ReadResp) :
    (walk_step P fw handle st info).bootmgfw
      = if is_dir P info = false ∧ is_bootmgfw_name P info.FileName = true
        then some st.files.length else st.bootmgfw := by
  unfold walk_step
  by_cases hd : is_dir P info = true
  · simp [hd, State.emit]
  · simp only [hd, add_entry_bootmgfw, Bool.false_eq_true, if_false]
    simp [hd, State.emit]

/-- A run of entries without a loader name leaves `bootmgfw` alone. -/
theorem walk_bootmgfw_keep (P : Platform) (fw : Firmware) (handle : Nat)
    (pre : List ReadResp)
    (h : ∀ x ∈ pre, is_dir P x = false → is_bootmgfw_name P x.FileName = false) :
    ∀ st : State, (pre.foldl (walk_step P fw handle) st).bootmgfw = st.bootmgfw := by
  induction pre with
  | nil => intro st; rfl
  | cons info pre ih =>
    intro st
    rw [List.foldl_cons, ih (fun x hx => h x (List.mem_cons_of_mem _ hx)), walk_step_bootmgfw]
    have := h info (List.mem_cons_self _ _)
    by_cases hd : is_dir P info = false
    · simp [hd, this hd]
    · simp [hd]

theorem getElem?_mid {α : Type} (xs ys zs : List α) (y : α) :
    (xs ++ (ys ++ y :: zs))[xs.length + ys.length]? = some y := by
  rw [List.getElem?_append_right (by omega)]
  rw [List.getElem?_append_right (by omega)]
  simp

theorem plain_files_append (P : Platform) (a b : List ReadResp) :
    plain_files P (a ++ b) = plain_files P a ++ plain_files P b := by
  simp [plain_files]

theorem plain_files_cons (P : Platform) (e : ReadResp) (b : List ReadResp)
    (h : is_dir P e = false) : plain_files P (e :: b) = e :: plain_files P b := by
  simp [plain_files, List.filter_cons, h]

/-- State after a complete walk: a well-behaved run of entries, then the
end of the directory. -/
theorem read_root_directory_complete (P : Platform) (fw : Firmware) (handle : Nat)
    (pre : List ReadResp) (z : ReadResp) (post : List ReadResp) (st : State)
    (hok : walk_ok P fw handle pre) (hz : is_end z) :
    read_root_directory P fw handle (pre ++ z :: post) st
      = .ret () ((pre.foldl (walk_step P fw handle) st).emit (.Read handle)) := by
  rw [read_root_directory_append P fw handle pre _ st hok,
    read_root_directory_end P fw handle z post _ hz]

/-- Registry slot of a plain entry after a walk over `x ++ e :: y`. -/
theorem files_lookup (P : Platform) (fw : Firmware) (handle : Nat) (files : List vdisk_file)
    (x y : List ReadResp) (e : ReadResp) (he : is_dir P e = false) :
    (files ++ (plain_files P (x ++ e :: y)).map
        (fun i => entry_record P i (fw.Open handle i.FileName).2))[
      files.length + (plain_files P x).length]?
      = some (entry_record P e (fw.Open handle e.FileName).2) := by
  rw [plain_files_append, plain_files_cons P e y he, List.map_append, List.map_cons]
  have := getElem?_mid files
    ((plain_files P x).map (fun i => entry_record P i (fw.Open handle i.FileName).2))
    ((plain_files P y).map (fun i => entry_record P i (fw.Open handle i.FileName).2))
    (entry_record P e (fw.Open handle e.FileName).2)
  rw [List.length_map] at this
  exact this

/-! ### Lemmas on the event log -/

theorem add_entry_events (P : Platform) (h : Nat) (st : State) (info : ReadResp) (file : Nat) :
    ∃ evs, (add_entry P st info file).log = st.log ++ evs ∧
      ∀ e ∈ evs, walk_event h e = true := by
  unfold add_entry vdisk_add_file vdisk_patch_file
  split_ifs
  · exact ⟨[.vdisk_add_file (narrow_name P info.FileName) file info.FileSize .efi_read_file],
      by simp only [State.emit], by simp [walk_event]⟩
  · exact ⟨[.vdisk_add_file (narrow_name P info.FileName) file info.FileSize .efi_read_file,
        .vdisk_patch_file st.files.length .efi_patch_bcd],
      by simp [State.emit], by simp [walk_event]⟩
  · exact ⟨[.vdisk_add_file (narrow_name P info.FileName) file info.FileSize .efi_read_file],
      by simp only [State.emit], by simp [walk_event]⟩

/-- Whatever the firmware answers, the walk only appends events of the
walk on its own volume. -/
theorem read_root_directory_events (P : Platform) (fw : Firmware) (handle : Nat)
    (reads : List ReadResp) :
    ∀ st : State, ∃ evs,
      (read_root_directory P fw handle reads st).state.log = st.log ++ evs ∧
      ∀ e ∈ evs, walk_event handle e = true := by
  induction reads with
  | nil => intro st; exact ⟨[], by simp [read_root_directory, Outcome.state], by simp⟩
  | cons info rest ih =>
    intro st
    simp only [read_root_directory]
    split_ifs with c1 c2 c3 c4
    · exact ⟨[.Read handle, .die "Could not read root directory: %#lx\n"],
        by simp [die, State.emit, Outcome.state], by simp [walk_event]⟩
    · exact ⟨[.Read handle], by simp [State.emit, Outcome.state], by simp [walk_event]⟩
    · obtain ⟨evs, h1, h2⟩ := ih (st.emit (.Read handle))
      refine ⟨.Read handle :: evs, by rw [h1]; simp [State.emit], ?_⟩
      intro e he
      rcases List.mem_cons.mp he with rfl | he
      · simp [walk_event]
      · exact h2 e he
    · exact ⟨[.Read handle, .Open handle info.FileName,
          .die "Could not open \"%ls\": %#lx\n"],
        by simp [die, State.emit, Outcome.state], by simp [walk_event]⟩
    · obtain ⟨ev1, a1, a2⟩ := add_entry_events P handle
        ((st.emit (.Read handle)).emit (.Open handle info.FileName)) info
        (fw.Open handle info.FileName).2
      obtain ⟨evs, h1, h2⟩ := ih (add_entry P
        ((st.emit (.Read handle)).emit (.Open handle info.FileName)) info
        (fw.Open handle info.FileName).2)
      refine ⟨[.Read handle, .Open handle info.FileName] ++ ev1 ++ evs,
        by rw [h1, a1]; simp [State.emit], ?_⟩
      intro e he
      simp only [List.mem_append, List.mem_cons, List.mem_singleton, List.not_mem_nil,
        or_false] at he
      rcases he with (((rfl | rfl) | he) | he)
      · simp [walk_event]
      · simp [walk_event]
      · exact a2 e he
      · exact h2 e he

/-! ### Lemmas on the archive step -/

theorem wim_add_files_each_spec (P : Platform) (wim : Archive) (index : Nat)
    (paths : List (List Nat)) :
    ∀ st : State, ∃ adds,
      (wim_add_files_each P wim index paths st).log = st.log ++ adds ∧
      (∀ e ∈ adds, is_vdisk_add e = true) ∧
      (wim_add_files_each P wim index paths st).bootmgfw = st.bootmgfw ∧
      (wim_add_files_each P wim index paths st).bootwim = st.bootwim := by
  induction paths with
  | nil => intro st; exact ⟨[], by simp [wim_add_files_each], by simp, rfl, rfl⟩
  | cons path paths ih =>
    intro st
    simp only [wim_add_files_each]
    cases hl : wim.lookup index path with
    | none => exact ih st
    | some r =>
      obtain ⟨adds, h1, h2, h3, h4⟩ :=
        ih (vdisk_add_file st (narrow_name P path) r.1 r.2 .wim_read_file).2
      refine ⟨.vdisk_add_file (narrow_name P path) r.1 r.2 .wim_read_file :: adds, ?_, ?_,
        ?_, ?_⟩
      · simp only [h1]; simp [vdisk_add_file, State.emit]
      · intro e he
        rcases List.mem_cons.mp he with rfl | he
        · rfl
        · exact h2 e he
      · rw [h3]; rfl
      · rw [h4]; rfl

theorem wim_add_files_spec (P : Platform) (wim : Archive) (st : State) (file index : Nat)
    (paths : List (List Nat)) :
    ∃ adds, (wim_add_files P wim st file index paths).log
        = st.log ++ .wim_add_files file index paths :: adds ∧
      (∀ e ∈ adds, is_vdisk_add e = true) ∧
      (wim_add_files P wim st file index paths).bootmgfw = st.bootmgfw ∧
      (wim_add_files P wim st file index paths).bootwim = st.bootwim := by
  obtain ⟨adds, h1, h2, h3, h4⟩ :=
    wim_add_files_each_spec P wim index paths (st.emit (.wim_add_files file index paths))
  exact ⟨adds, by simp only [wim_add_files, h1]; simp [State.emit], h2, h3, h4⟩

/-- Archive step when no archive was located. -/
theorem process_wim_absent (P : Platform) (wim : Archive) (st : State)
    (hw : st.bootwim = none) : process_wim P wim st = st := by
  simp only [process_wim, hw]

/-- Archive step when a boot loader is already resolved. -/
theorem process_wim_resolved (P : Platform) (wim : Archive) (st : State) (bw f : Nat)
    (hw : st.bootwim = some bw) (hf : st.bootmgfw = some f) :
    ∃ adds, (process_wim P wim st).log
        = st.log ++ [.vdisk_patch_file bw .patch_wim,
            .wim_add_files bw P.cmdline_index efi_wim_paths] ++ adds ∧
      (∀ e ∈ adds, is_vdisk_add e = true) ∧
      (process_wim P wim st).bootmgfw = some f := by
  obtain ⟨adds, h1, h2, h3, _⟩ := wim_add_files_spec P wim
    (vdisk_patch_file st bw .patch_wim) bw P.cmdline_index efi_wim_paths
  have e : process_wim P wim st = wim_add_files P wim (vdisk_patch_file st bw .patch_wim) bw
      P.cmdline_index efi_wim_paths := by
    simp only [process_wim, hw]
    have : (vdisk_patch_file st bw .patch_wim).bootmgfw = some f := by
      simp [vdisk_patch_file, State.emit, hf]
    simp only [this]
  rw [e]
  refine ⟨adds, ?_, h2, ?_⟩
  · rw [h1]; simp [vdisk_patch_file, State.emit]
  · rw [h3]; simp [vdisk_patch_file, State.emit, hf]

/-- The registration made by `wim_add_file` on the boot-manager path. -/
theorem process_wim_unresolved (P : Platform) (wim : Archive) (st : State) (bw : Nat)
    (hw : st.bootwim = some bw) (hf : st.bootmgfw = none) :
    ∃ adds1 adds2, (process_wim P wim st).log
        = st.log ++ [.vdisk_patch_file bw .patch_wim,
            .wim_add_file bw P.cmdline_index bootmgfw_path (efi_bootarch P)] ++ adds1 ++
          .wim_add_files bw P.cmdline_index efi_wim_paths :: adds2 ∧
      (∀ e ∈ adds1 ++ adds2, is_vdisk_add e = true) ∧
      (wim.lookup P.cmdline_index bootmgfw_path = none → adds1 = []) ∧
      (process_wim P wim st).bootmgfw
        = (wim.lookup P.cmdline_index bootmgfw_path).map (fun _ => st.files.length) := by
  have hp : (vdisk_patch_file st bw .patch_wim).bootmgfw = none := by
    simp [vdisk_patch_file, State.emit, hf]
  have e : process_wim P wim st = wim_add_files P wim
      { (wim_add_file P wim (vdisk_patch_file st bw .patch_wim) bw P.cmdline_index
          bootmgfw_path (efi_bootarch P)).2 with
        bootmgfw := (wim_add_file P wim (vdisk_patch_file st bw .patch_wim) bw
          P.cmdline_index bootmgfw_path (efi_bootarch P)).1 }
      bw P.cmdline_index efi_wim_paths := by
    simp only [process_wim, hw, hp]
  obtain ⟨adds, h1, h2, h3, _⟩ := wim_add_files_spec P wim
    { (wim_add_file P wim (vdisk_patch_file st bw .patch_wim) bw P.cmdline_index
        bootmgfw_path (efi_bootarch P)).2 with
      bootmgfw := (wim_add_file P wim (vdisk_patch_file st bw .patch_wim) bw
        P.cmdline_index bootmgfw_path (efi_bootarch P)).1 }
    bw P.cmdline_index efi_wim_paths
  rw [e, h1, h3]
  cases hl : wim.lookup P.cmdline_index bootmgfw_path with
  | none =>
    refine ⟨[], adds, ?_, by simpa using h2, fun _ => rfl, ?_⟩
    · simp [wim_add_file, hl, vdisk_patch_file, State.emit]
    · simp [wim_add_file, hl]
  | some r =>
    refine ⟨[.vdisk_add_file (narrow_name P (efi_bootarch P)) r.1 r.2 .wim_read_file], adds,
      ?_, ?_, fun a => absurd a (by simp), ?_⟩
    · simp [wim_add_file, hl, vdisk_patch_file, vdisk_add_file, State.emit]
    · intro x hx
      rcases List.mem_append.mp hx with hx | hx
      · simp only [List.mem_singleton] at hx
        subst hx
        rfl
      · exact h2 x hx
    · simp [wim_add_file, hl, vdisk_patch_file, vdisk_add_file, State.emit]

/-- Whenever the archive is set, the archive step calls `wim_add_files` on
`efi_wim_paths`. -/
theorem process_wim_calls_wim_add_files (P : Platform) (wim : Archive) (st : State)
    (bw : Nat) (hw : st.bootwim = some bw) :
    ∃ e1 e2, (process_wim P wim st).log
      = st.log ++ e1 ++ .wim_add_files bw P.cmdline_index efi_wim_paths :: e2 := by
  cases hf : st.bootmgfw with
  | none =>
    obtain ⟨adds1, adds2, h1, _, _, _⟩ := process_wim_unresolved P wim st bw hw hf
    exact ⟨[.vdisk_patch_file bw .patch_wim,
      .wim_add_file bw P.cmdline_index bootmgfw_path (efi_bootarch P)] ++ adds1, adds2,
      by rw [h1]; simp only [List.append_assoc]⟩
  | some f =>
    obtain ⟨adds, h1, _, _⟩ := process_wim_resolved P wim st bw f hw hf
    exact ⟨[.vdisk_patch_file bw .patch_wim], adds, by rw [h1]; simp⟩

theorem queries_bootmgfw_append (a b : List Event) :
    queries_bootmgfw (a ++ b) = (queries_bootmgfw a || queries_bootmgfw b) := by
  simp [queries_bootmgfw, List.any_append]

theorem queries_bootmgfw_adds (adds : List Event) (h : ∀ e ∈ adds, is_vdisk_add e = true) :
    queries_bootmgfw adds = false := by
  simp only [queries_bootmgfw, List.any_eq_false]
  intro e he
  have := h e he
  cases e <;> simp_all [is_vdisk_add]

theorem queries_bootmgfw_walk (h : Nat) (evs : List Event)
    (hw : ∀ e ∈ evs, walk_event h e = true) : queries_bootmgfw evs = false := by
  simp only [queries_bootmgfw, List.any_eq_false]
  intro e he
  have := hw e he
  cases e <;> simp_all [walk_event]

/-! ### Lemmas on probing a handle -/

/-- A handle on which the marker file opens is accepted: the call goes on
with the directory walk. -/
theorem extract_by_handle_confirmed (P : Platform) (fw : Firmware) (wim : Archive)
    (st : State) (h : Nat) (hm : marker_opens fw h) :
    extract_by_handle P fw wim st h
      = extract_confirmed P fw wim (st.emits (probe_events fw h)) h := by
  obtain ⟨h1, h2, h3⟩ := hm
  simp only [extract_by_handle, probe_events, h1, h2, h3, ne_eq, not_true_eq_false, if_false]
  simp [State.emit, State.emits]

/-- A handle on which the marker file does not open is rejected with -1,
and only the probing calls are logged. -/
theorem extract_by_handle_rejected (P : Platform) (fw : Firmware) (wim : Archive)
    (st : State) (h : Nat) (hm : ¬ marker_opens fw h) :
    extract_by_handle P fw wim st h = .ret (-1) (st.emits (probe_events fw h)) := by
  simp only [marker_opens] at hm
  simp only [extract_by_handle, probe_events]
  by_cases h1 : fw.OpenProtocol h = 0
  · by_cases h2 : fw.OpenVolume h = 0
    · have h3 : (fw.Open h HDA_SGN_FILE).1 ≠ 0 := fun a => hm ⟨h1, h2, a⟩
      simp [h1, h2, h3, State.emit, State.emits]
    · simp [h1, h2, State.emit, State.emits]
  · simp [h1, State.emit, State.emits]

/-! ### Lemmas on handle enumeration and the discovery loop -/

theorem emits_nil (st : State) : st.emits [] = st := by
  cases st; simp [State.emits]

theorem emits_emits (st : State) (a b : List Event) :
    (st.emits a).emits b = st.emits (a ++ b) := by
  simp [State.emits]

/-- The function `efi_locate_handle` returns or dies in `efi_malloc`; either way the
registry is untouched and no `vdisk_add_file` call is logged; a null
buffer comes with `num_handles` as the caller left it. -/
theorem efi_locate_handle_frame (P : Platform) (fw : Firmware) (st : State)
    (num_handles : Nat) :
    ∃ evs, (efi_locate_handle P fw st num_handles).state = st.emits evs ∧
      (∀ e ∈ evs, is_vdisk_add e = false) ∧
      ((efi_locate_handle P fw st num_handles = .die (st.emits evs)) ∨
       (efi_locate_handle P fw st num_handles = .ret (none, num_handles) (st.emits evs)) ∨
       (∃ b n, efi_locate_handle P fw st num_handles = .ret (some b, n) (st.emits evs))) := by
  by_cases ha : (fw.AllocatePool 0 (16 * P.sizeof_EFI_HANDLE)).1 ≠ EFI_SUCCESS ∨
      (fw.AllocatePool 0 (16 * P.sizeof_EFI_HANDLE)).2 = 0
  · have e : efi_locate_handle P fw st num_handles
        = .die (st.emits [.AllocatePool (16 * P.sizeof_EFI_HANDLE),
            .die "Could not allocate memory.\n"]) := by
      simp [efi_locate_handle, efi_malloc, ha, die, State.emit, State.emits]
    exact ⟨_, by rw [e]; rfl, by simp [is_vdisk_add], Or.inl e⟩
  · by_cases hs : (fw.LocateHandle 0 (16 * P.sizeof_EFI_HANDLE)).status
        = P.EFI_BUFFER_TOO_SMALL
    · by_cases hb :
          (fw.AllocatePool 1 (fw.LocateHandle 0 (16 * P.sizeof_EFI_HANDLE)).buffer_size).1
            ≠ EFI_SUCCESS ∨
          (fw.AllocatePool 1 (fw.LocateHandle 0 (16 * P.sizeof_EFI_HANDLE)).buffer_size).2 = 0
      · have e : efi_locate_handle P fw st num_handles
            = .die (st.emits [.AllocatePool (16 * P.sizeof_EFI_HANDLE),
                .LocateHandle (16 * P.sizeof_EFI_HANDLE), .FreePool,
                .AllocatePool (fw.LocateHandle 0 (16 * P.sizeof_EFI_HANDLE)).buffer_size,
                .die "Could not allocate memory.\n"]) := by
          simp only [efi_locate_handle, efi_malloc, ha, if_false, hs, if_true, hb, die]
          simp [State.emit, State.emits, efi_free]
        exact ⟨_, by rw [e]; rfl, by simp [is_vdisk_add], Or.inl e⟩
      · by_cases hf : (fw.LocateHandle 1
            (fw.LocateHandle 0 (16 * P.sizeof_EFI_HANDLE)).buffer_size).status ≠ EFI_SUCCESS
        · have e : efi_locate_handle P fw st num_handles
              = .ret (none, num_handles) (st.emits [.AllocatePool (16 * P.sizeof_EFI_HANDLE),
                  .LocateHandle (16 * P.sizeof_EFI_HANDLE), .FreePool,
                  .AllocatePool (fw.LocateHandle 0 (16 * P.sizeof_EFI_HANDLE)).buffer_size,
                  .LocateHandle (fw.LocateHandle 0 (16 * P.sizeof_EFI_HANDLE)).buffer_size,
                  .FreePool]) := by
            simp only [efi_locate_handle, efi_malloc, ha, if_false, hs, if_true, hb,
              efi_locate_handle_finish, hf]
            simp [State.emit, State.emits, efi_free, hf]
          exact ⟨_, by rw [e]; rfl, by simp [is_vdisk_add], Or.inr (Or.inl e)⟩
        · have e : efi_locate_handle P fw st num_handles
              = .ret (some (fw.LocateHandle 1
                    (fw.LocateHandle 0 (16 * P.sizeof_EFI_HANDLE)).buffer_size).handles,
                  (fw.LocateHandle 1
                    (fw.LocateHandle 0 (16 * P.sizeof_EFI_HANDLE)).buffer_size).buffer_size
                    / P.sizeof_EFI_HANDLE)
                (st.emits [.AllocatePool (16 * P.sizeof_EFI_HANDLE),
                  .LocateHandle (16 * P.sizeof_EFI_HANDLE), .FreePool,
                  .AllocatePool (fw.LocateHandle 0 (16 * P.sizeof_EFI_HANDLE)).buffer_size,
                  .LocateHandle (fw.LocateHandle 0 (16 * P.sizeof_EFI_HANDLE)).buffer_size])
              := by
            simp only [efi_locate_handle, efi_malloc, ha, if_false, hs, if_true, hb,
              efi_locate_handle_finish, hf]
            simp [State.emit, State.emits, efi_free]
          exact ⟨_, by rw [e]; rfl, by simp [is_vdisk_add], Or.inr (Or.inr ⟨_, _, e⟩)⟩
    · by_cases hf : (fw.LocateHandle 0 (16 * P.sizeof_EFI_HANDLE)).status ≠ EFI_SUCCESS
      · have e : efi_locate_handle P fw st num_handles
            = .ret (none, num_handles) (st.emits [.AllocatePool (16 * P.sizeof_EFI_HANDLE),
                .LocateHandle (16 * P.sizeof_EFI_HANDLE), .FreePool]) := by
          simp only [efi_locate_handle, efi_malloc, ha, if_false, hs,
            efi_locate_handle_finish, hf, if_true]
          simp [State.emit, State.emits, efi_free, hf]
        exact ⟨_, by rw [e]; rfl, by simp [is_vdisk_add], Or.inr (Or.inl e)⟩
      · have e : efi_locate_handle P fw st num_handles
            = .ret (some (fw.LocateHandle 0 (16 * P.sizeof_EFI_HANDLE)).handles,
                (fw.LocateHandle 0 (16 * P.sizeof_EFI_HANDLE)).buffer_size
                  / P.sizeof_EFI_HANDLE)
              (st.emits [.AllocatePool (16 * P.sizeof_EFI_HANDLE),
                .LocateHandle (16 * P.sizeof_EFI_HANDLE)]) := by
          simp only [efi_locate_handle, efi_malloc, ha, if_false, hs,
            efi_locate_handle_finish, hf]
          simp [State.emit, State.emits]
        exact ⟨_, by rw [e]; rfl, by simp [is_vdisk_add], Or.inr (Or.inr ⟨_, _, e⟩)⟩

theorem probes_succ (fw : Firmware) (b : Nat → Nat) (i cnt : Nat) :
    probes fw b i (cnt + 1) = probe_events fw (b i) ++ probes fw b (i + 1) cnt := rfl

theorem probe_events_no_add (fw : Firmware) (h : Nat) :
    ∀ e ∈ probe_events fw h, is_vdisk_add e = false := by
  unfold probe_events
  split_ifs <;> simp [is_vdisk_add]

theorem probes_no_add (fw : Firmware) (b : Nat → Nat) (cnt : Nat) :
    ∀ i, ∀ e ∈ probes fw b i cnt, is_vdisk_add e = false := by
  induction cnt with
  | zero => intro i e he; simp [probes] at he
  | succ cnt ih =>
    intro i e he
    rw [probes_succ] at he
    rcases List.mem_append.mp he with he | he
    · exact probe_events_no_add fw (b i) e he
    · exact ih (i + 1) e he

/-- When no remaining candidate lets the marker file open, the loop probes
them all in order and ends in `die`. -/
theorem efi_extract_hda_loop_reject (P : Platform) (fw : Firmware) (wim : Archive)
    (b : Nat → Nat) (num : Nat) :
    ∀ (n i : Nat) (st : State), (∀ j, i ≤ j → j < num → ¬ marker_opens fw (b j)) →
      num ≤ i + n →
      efi_extract_hda_loop P fw wim (some b) num n i st
        = die (st.emits (probes fw b i (num - i))) "FATAL: hda not found\n" := by
  intro n
  induction n with
  | zero =>
    intro i st _ hn
    have hc : ¬ i < num := by omega
    have h0 : num - i = 0 := by omega
    simp only [efi_extract_hda_loop, hc, if_false, h0, probes, emits_nil]
  | succ n ih =>
    intro i st hj hn
    by_cases hc : i < num
    · have hr := extract_by_handle_rejected P fw wim st (b i) (hj i (le_refl i) hc)
      have hs : num - i = (num - (i + 1)) + 1 := by omega
      simp only [efi_extract_hda_loop, hc, if_true, hr]
      rw [ih (i + 1) _ (fun j h1 h2 => hj j (by omega) h2) (by omega), emits_emits, hs,
        probes_succ]
      simp
    · have h0 : num - i = 0 := by omega
      simp only [efi_extract_hda_loop, hc, if_false, h0, probes, emits_nil]

theorem extract_confirmed_ret (P : Platform) (fw : Firmware) (wim : Archive) (st : State)
    (h : Nat) (v : Int) (s : State) (hr : extract_confirmed P fw wim st h = .ret v s) :
    v = 0 := by
  unfold extract_confirmed at hr
  split at hr
  · unfold check_boot_file at hr
    split at hr
    · simp [die] at hr
    · simp only [Outcome.ret.injEq] at hr
      exact hr.1.symm
  all_goals simp at hr

/-- The loop probes and rejects the candidates before the first one that
lets the marker file open, and accepts that one. -/
theorem efi_extract_hda_loop_accept (P : Platform) (fw : Firmware) (wim : Archive)
    (b : Nat → Nat) (num k : Nat) (hk : k < num) (hm : marker_opens fw (b k)) :
    ∀ (n i : Nat) (st : State), i ≤ k → k < i + n →
      (∀ j, i ≤ j → j < k → ¬ marker_opens fw (b j)) →
      efi_extract_hda_loop P fw wim (some b) num n i st
        = accept (extract_confirmed P fw wim
            (st.emits (probes fw b i (k - i) ++ probe_events fw (b k))) (b k)) := by
  intro n
  induction n with
  | zero => intro i st h1 h2; omega
  | succ n ih =>
    intro i st h1 h2 hj
    have hc : i < num := by omega
    rcases Nat.eq_or_lt_of_le h1 with e | hlt
    · subst e
      have h0 : i - i = 0 := by omega
      simp only [efi_extract_hda_loop, hc, if_true,
        extract_by_handle_confirmed P fw wim st (b i) hm, h0, probes, List.nil_append]
      cases hr : extract_confirmed P fw wim (st.emits (probe_events fw (b i))) (b i) with
      | ret v s =>
        have := extract_confirmed_ret P fw wim _ _ v s hr
        simp [this, accept]
      | die s => rfl
      | fault s => rfl
      | pending s => rfl
    · have hr := extract_by_handle_rejected P fw wim st (b i) (hj i (le_refl i) hlt)
      have hs : k - i = (k - (i + 1)) + 1 := by omega
      simp only [efi_extract_hda_loop, hc, if_true, hr]
      rw [ih (i + 1) _ (by omega) (by omega) (fun j h3 h4 => hj j (by omega) h4),
        emits_emits, hs, probes_succ]
      simp

theorem volume_event_of_walk (h : Nat) (e : Event) (hw : walk_event h e = true) :
    volume_event h e = true := by
  cases e <;> simp_all [volume_event, walk_event]

theorem volume_event_of_add (h : Nat) (e : Event) (ha : is_vdisk_add e = true) :
    volume_event h e = true := by
  cases e <;> simp_all [volume_event, walk_event, is_vdisk_add]

theorem process_wim_events (P : Platform) (wim : Archive) (h : Nat) (st : State) :
    ∃ evs, (process_wim P wim st).log = st.log ++ evs ∧
      ∀ e ∈ evs, volume_event h e = true := by
  cases hw : st.bootwim with
  | none => exact ⟨[], by rw [process_wim_absent P wim st hw]; simp, by simp⟩
  | some bw =>
    cases hf : st.bootmgfw with
    | none =>
      obtain ⟨adds1, adds2, h1, h2, _, _⟩ := process_wim_unresolved P wim st bw hw hf
      refine ⟨[.vdisk_patch_file bw .patch_wim,
          .wim_add_file bw P.cmdline_index bootmgfw_path (efi_bootarch P)] ++
          (adds1 ++ .wim_add_files bw P.cmdline_index efi_wim_paths :: adds2),
        by rw [h1]; simp only [List.append_assoc], ?_⟩
      intro e he
      simp only [List.mem_append, List.mem_cons, List.mem_singleton, List.not_mem_nil,
        or_false] at he
      rcases he with (rfl | rfl) | (he | (rfl | he))
      · rfl
      · rfl
      · exact volume_event_of_add h e (h2 e (List.mem_append_left _ he))
      · rfl
      · exact volume_event_of_add h e (h2 e (List.mem_append_right _ he))
    | some f =>
      obtain ⟨adds, h1, h2, _⟩ := process_wim_resolved P wim st bw f hw hf
      refine ⟨[.vdisk_patch_file bw .patch_wim,
          .wim_add_files bw P.cmdline_index efi_wim_paths] ++ adds,
        by rw [h1]; simp only [List.append_assoc], ?_⟩
      intro e he
      simp only [List.mem_append, List.mem_cons, List.mem_singleton, List.not_mem_nil,
        or_false] at he
      rcases he with (rfl | rfl) | he
      · rfl
      · rfl
      · exact volume_event_of_add h e (h2 e he)

/-- Once a volume is confirmed, the rest of `extract_by_handle` only logs
calls on that volume, on the registry and on the archive. -/
theorem extract_confirmed_events (P : Platform) (fw : Firmware) (wim : Archive) (st : State)
    (h : Nat) :
    ∃ evs, (extract_confirmed P fw wim st h).state.log = st.log ++ evs ∧
      ∀ e ∈ evs, volume_event h e = true := by
  obtain ⟨walked, w1, w2⟩ := read_root_directory_events P fw h (fw.Read h) st
  unfold extract_confirmed
  cases hr : read_root_directory P fw h (fw.Read h) st with
  | ret v s1 =>
    rw [hr] at w1
    simp only [Outcome.state] at w1
    obtain ⟨evs, p1, p2⟩ := process_wim_events P wim h s1
    simp only [check_boot_file]
    cases hb : (process_wim P wim s1).bootmgfw with
    | none =>
      refine ⟨walked ++ evs ++ [.die "FATAL: no %ls or bootmgfw.efi found\n"], ?_, ?_⟩
      · simp [die, Outcome.state, State.emit, p1, w1]
      · intro e he
        simp only [List.mem_append, List.mem_singleton] at he
        rcases he with (he | he) | rfl
        · exact volume_event_of_walk h e (w2 e he)
        · exact p2 e he
        · rfl
    | some f =>
      refine ⟨walked ++ evs, ?_, ?_⟩
      · simp [Outcome.state, p1, w1]
      · intro e he
        rcases List.mem_append.mp he with he | he
        · exact volume_event_of_walk h e (w2 e he)
        · exact p2 e he
  | die s =>
    rw [hr] at w1
    exact ⟨walked, w1, fun e he => volume_event_of_walk h e (w2 e he)⟩
  | fault s =>
    rw [hr] at w1
    exact ⟨walked, w1, fun e he => volume_event_of_walk h e (w2 e he)⟩
  | pending s =>
    rw [hr] at w1
    exact ⟨walked, w1, fun e he => volume_event_of_walk h e (w2 e he)⟩

theorem accept_state (o : Outcome Int) : (accept o).state = o.state := by
  cases o <;> rfl

/-- The archive step asks the archive for the boot manager exactly when
`bootwim` is set and `bootmgfw` is unset, and it keeps a `bootmgfw` that is
already set. -/
theorem process_wim_queries (P : Platform) (wim : Archive) (s1 : State) :
    ∃ evs, (process_wim P wim s1).log = s1.log ++ evs ∧
      (queries_bootmgfw evs = true ↔ (s1.bootwim ≠ none ∧ s1.bootmgfw = none)) ∧
      (∀ f, s1.bootmgfw = some f → (process_wim P wim s1).bootmgfw = some f) := by
  cases hw : s1.bootwim with
  | none =>
    refine ⟨[], by rw [process_wim_absent P wim s1 hw]; simp, by simp [queries_bootmgfw], ?_⟩
    intro f hf
    rw [process_wim_absent P wim s1 hw]
    exact hf
  | some bw =>
    cases hf : s1.bootmgfw with
    | none =>
      obtain ⟨adds1, adds2, h1, _, _, _⟩ := process_wim_unresolved P wim s1 bw hw hf
      refine ⟨[.vdisk_patch_file bw .patch_wim,
          .wim_add_file bw P.cmdline_index bootmgfw_path (efi_bootarch P)] ++
          (adds1 ++ .wim_add_files bw P.cmdline_index efi_wim_paths :: adds2),
        by rw [h1]; simp only [List.append_assoc], ?_, ?_⟩
      · simp [queries_bootmgfw]
      · intro f hff
        exact absurd hff (by simp)
    | some f =>
      obtain ⟨adds, h1, h2, h3⟩ := process_wim_resolved P wim s1 bw f hw hf
      have hq : queries_bootmgfw ([.vdisk_patch_file bw .patch_wim,
          .wim_add_files bw P.cmdline_index efi_wim_paths] ++ adds) = false := by
        rw [queries_bootmgfw_append, queries_bootmgfw_adds adds h2]
        rfl
      refine ⟨[.vdisk_patch_file bw .patch_wim,
          .wim_add_files bw P.cmdline_index efi_wim_paths] ++ adds,
        by rw [h1]; simp only [List.append_assoc], ?_, ?_⟩
      · rw [hq]; simp
      · intro f1 hf1
        have : f1 = f := by simpa using hf1.symm
        subst this
        exact h3

/-- Queries of the boot-manager path in a run past the marker file. -/
theorem extract_confirmed_queries (P : Platform) (fw : Firmware) (wim : Archive)
    (st : State) (handle : Nat) :
    ∃ evs, (extract_confirmed P fw wim st handle).state.log = st.log ++ evs ∧
      (queries_bootmgfw evs = true →
        ∃ s1, read_root_directory P fw handle (fw.Read handle) st = .ret () s1 ∧
          s1.bootwim ≠ none ∧ s1.bootmgfw = none) ∧
      (∀ s1, read_root_directory P fw handle (fw.Read handle) st = .ret () s1 →
        s1.bootwim ≠ none → s1.bootmgfw = none → queries_bootmgfw evs = true) ∧
      (∀ s1 f, read_root_directory P fw handle (fw.Read handle) st = .ret () s1 →
        s1.bootmgfw = some f →
        queries_bootmgfw evs = false ∧
        ∃ s2, extract_confirmed P fw wim st handle = .ret 0 s2 ∧ s2.bootmgfw = some f) := by
  obtain ⟨walked, w1, w2⟩ := read_root_directory_events P fw handle (fw.Read handle) st
  have hwq := queries_bootmgfw_walk handle walked w2
  cases hr : read_root_directory P fw handle (fw.Read handle) st with
  | ret v s1 =>
    rw [hr] at w1
    simp only [Outcome.state] at w1
    obtain ⟨evs, p1, p2, p3⟩ := process_wim_queries P wim s1
    cases hb : (process_wim P wim s1).bootmgfw with
    | none =>
      have hrun : extract_confirmed P fw wim st handle
          = .die ((process_wim P wim s1).emit (.die "FATAL: no %ls or bootmgfw.efi found\n")) := by
        simp only [extract_confirmed, hr, check_boot_file, hb, die]
      have hq : queries_bootmgfw (walked ++ evs ++ [.die "FATAL: no %ls or bootmgfw.efi found\n"])
          = queries_bootmgfw evs := by
        rw [queries_bootmgfw_append, queries_bootmgfw_append, hwq]
        simp [queries_bootmgfw]
      refine ⟨walked ++ evs ++ [.die "FATAL: no %ls or bootmgfw.efi found\n"], ?_, ?_, ?_, ?_⟩
      · rw [hrun]; simp [Outcome.state, State.emit, p1, w1]
      · intro h
        rw [hq] at h
        exact ⟨s1, rfl, p2.mp h⟩
      · intro s2 h2 hw hf
        simp only [Outcome.ret.injEq, true_and] at h2
        subst h2
        rw [hq]
        exact p2.mpr ⟨hw, hf⟩
      · intro s2 f h2 hf
        simp only [Outcome.ret.injEq, true_and] at h2
        subst h2
        have := p3 f hf
        rw [hb] at this
        exact absurd this (by simp)
    | some f0 =>
      have hrun : extract_confirmed P fw wim st handle = .ret 0 (process_wim P wim s1) := by
        simp only [extract_confirmed, hr, check_boot_file, hb]
      have hq : queries_bootmgfw (walked ++ evs) = queries_bootmgfw evs := by
        rw [queries_bootmgfw_append, hwq]
        simp
      refine ⟨walked ++ evs, ?_, ?_, ?_, ?_⟩
      · rw [hrun]; simp [Outcome.state, p1, w1]
      · intro h
        rw [hq] at h
        exact ⟨s1, rfl, p2.mp h⟩
      · intro s2 h2 hw hf
        simp only [Outcome.ret.injEq, true_and] at h2
        subst h2
        rw [hq]
        exact p2.mpr ⟨hw, hf⟩
      · intro s2 f h2 hf
        simp only [Outcome.ret.injEq, true_and] at h2
        subst h2
        refine ⟨?_, process_wim P wim s1, hrun, p3 f hf⟩
        rw [hq]
        cases hqq : queries_bootmgfw evs with
        | false => rfl
        | true =>
          have := (p2.mp hqq).2
          rw [hf] at this
          exact absurd this (by simp)
  | die s =>
    rw [hr] at w1
    refine ⟨walked, ?_, ?_, ?_, ?_⟩
    · simpa [extract_confirmed, hr] using w1
    · intro h; rw [hwq] at h; exact absurd h (by simp)
    · intro s1 h; exact absurd h (by simp)
    · intro s1 f h; exact absurd h (by simp)
  | fault s =>
    rw [hr] at w1
    refine ⟨walked, ?_, ?_, ?_, ?_⟩
    · simpa [extract_confirmed, hr] using w1
    · intro h; rw [hwq] at h; exact absurd h (by simp)
    · intro s1 h; exact absurd h (by simp)
    · intro s1 f h; exact absurd h (by simp)
  | pending s =>
    rw [hr] at w1
    refine ⟨walked, ?_, ?_, ?_, ?_⟩
    · simpa [extract_confirmed, hr] using w1
    · intro h; rw [hwq] at h; exact absurd h (by simp)
    · intro s1 h; exact absurd h (by simp)
    · intro s1 f h; exact absurd h (by simp)

theorem queries_bootmgfw_probe (fw : Firmware) (h : Nat) :
    queries_bootmgfw (probe_events fw h) = false := by
  unfold probe_events
  split_ifs <;> rfl

/-- C8: for every buffer holding the `len`-byte read window, a call of
`efi_patch_bcd` ends normally, so no comparison read and no `memcpy` write
used a byte index at or above `len`; the buffer keeps its length, the bytes
at and after index `len` keep their values, and for `len` at most
`sizeof ( search )` the buffer is returned as it was. -/
theorem efi_patch_bcd_stays_in_window (cmdline_rawbcd : Bool) (data : List Nat)
    (offset len : Nat) (hl : len ≤ data.length) :
    ∃ out, efi_patch_bcd cmdline_rawbcd data offset len = .ok out ∧
      out.length = data.length ∧
      (∀ q, len ≤ q → view out q = view data q) ∧
      (len ≤ sizeof_search → out = data) := by
  cases cmdline_rawbcd with
  | true => exact ⟨data, rfl, rfl, fun _ _ => rfl, fun _ => rfl⟩
  | false =>
    obtain ⟨out, ho, hlen, _, hf⟩ := efi_patch_bcd_spec data offset len hl
    refine ⟨out, ho, hlen, ?_, ?_⟩
    · intro q hq
      exact hf q (fun j h1 _ _ => by omega)
    · intro hs
      have hd : efi_patch_bcd false data offset len = .ok data := by
        simp only [efi_patch_bcd, Bool.false_eq_true, if_false]
        exact efi_patch_bcd_loop_done len len 0 data (by omega)
      rw [hd] at ho
      exact (Mem.ok.inj ho).symm

/-- Witness for C8: an 11-byte window holding `.exe` and its NUL. -/
theorem efi_patch_bcd_stays_in_window_witness :
    11 ≤ [46, 0, 101, 0, 120, 0, 101, 0, 0, 0, 7].length ∧
    ∃ out, efi_patch_bcd false [46, 0, 101, 0, 120, 0, 101, 0, 0, 0, 7] 0 11 = .ok out ∧
      out.length = [46, 0, 101, 0, 120, 0, 101, 0, 0, 0, 7].length ∧
      (∀ q, 11 ≤ q → view out q = view [46, 0, 101, 0, 120, 0, 101, 0, 0, 0, 7] q) ∧
      (11 ≤ sizeof_search → out = [46, 0, 101, 0, 120, 0, 101, 0, 0, 0, 7]) :=
  ⟨by decide,
    efi_patch_bcd_stays_in_window false [46, 0, 101, 0, 120, 0, 101, 0, 0, 0, 7] 0 11
      (by decide)⟩

/-- C2: the code evaluated at three windows that hold a UTF-16LE `.exe` with
all 8 bytes below `len`, patching enabled.  An 8-byte window that is
exactly `.exe`, a 14-byte window in which `.exe` is followed by a space, and
a 10-byte window that is exactly `.exe` and its NUL are each returned
unchanged: the occurrence is not rewritten to `.efi`. -/
theorem efi_patch_bcd_leaves_exe :
    (exe_at (view [46, 0, 101, 0, 120, 0, 101, 0]) 0 ∧
      0 + 8 ≤ 8 ∧
      efi_patch_bcd false [46, 0, 101, 0, 120, 0, 101, 0] 0 8
        = .ok [46, 0, 101, 0, 120, 0, 101, 0] ∧
      ¬ efi_at (view [46, 0, 101, 0, 120, 0, 101, 0]) 0) ∧
    (exe_at (view [46, 0, 101, 0, 120, 0, 101, 0, 32, 0, 0, 0, 0, 0]) 0 ∧
      0 + 8 ≤ 14 ∧
      efi_patch_bcd false [46, 0, 101, 0, 120, 0, 101, 0, 32, 0, 0, 0, 0, 0] 0 14
        = .ok [46, 0, 101, 0, 120, 0, 101, 0, 32, 0, 0, 0, 0, 0] ∧
      ¬ efi_at (view [46, 0, 101, 0, 120, 0, 101, 0, 32, 0, 0, 0, 0, 0]) 0) ∧
    (exe_at (view [46, 0, 101, 0, 120, 0, 101, 0, 0, 0]) 0 ∧
      0 + 8 ≤ 10 ∧
      efi_patch_bcd false [46, 0, 101, 0, 120, 0, 101, 0, 0, 0] 0 10
        = .ok [46, 0, 101, 0, 120, 0, 101, 0, 0, 0] ∧
      ¬ efi_at (view [46, 0, 101, 0, 120, 0, 101, 0, 0, 0]) 0) := by
  decide

/-- C9: when a case-insensitive UTF-16LE `.exe` of `b1 ++ b2` starts inside
`b1` and ends inside `b2`, patching the two windows separately succeeds on
both and leaves all 8 bytes of that occurrence as they were. -/
theorem efi_patch_bcd_straddling_unchanged (cmdline_rawbcd : Bool) (b1 b2 : List Nat)
    (offset1 offset2 p : Nat) (h1 : p < b1.length) (h2 : b1.length < p + 8)
    (hocc : exe_at (view (b1 ++ b2)) p) :
    ∃ out1 out2,
      efi_patch_bcd cmdline_rawbcd b1 offset1 b1.length = .ok out1 ∧
      efi_patch_bcd cmdline_rawbcd b2 offset2 b2.length = .ok out2 ∧
      ∀ k, k < 8 → view (out1 ++ out2) (p + k) = view (b1 ++ b2) (p + k) := by
  cases cmdline_rawbcd with
  | true => exact ⟨b1, b2, rfl, rfl, fun _ _ => rfl⟩
  | false =>
    obtain ⟨out1, ho1, hlen1, _, hf1⟩ := efi_patch_bcd_spec b1 offset1 b1.length (le_refl _)
    obtain ⟨out2, ho2, _, _, hf2⟩ := efi_patch_bcd_spec b2 offset2 b2.length (le_refl _)
    refine ⟨out1, out2, ho1, ho2, ?_⟩
    intro k hk
    have hdot : view (b1 ++ b2) p = some 46 := hocc.1
    by_cases hq : p + k < b1.length
    · have e1 : view (out1 ++ out2) (p + k) = view out1 (p + k) := by
        simp only [view]
        exact List.getElem?_append_left (by omega)
      have e2 : view (b1 ++ b2) (p + k) = view b1 (p + k) := by
        simp only [view]
        exact List.getElem?_append_left hq
      rw [e1, e2]
      apply hf1
      intro j hj hh hle hlt
      obtain ⟨d, hd⟩ : ∃ d, p = j + d := ⟨p - j, by omega⟩
      have hb : view b1 p = some 46 := by
        rw [← hdot]
        simp only [view]
        exact (List.getElem?_append_left h1).symm
      rw [hd] at hb
      exact hit_no_dot (view b1) j d hh (by omega) (by omega) hb
    · have e1 : view (out1 ++ out2) (p + k) = view out2 (p + k - b1.length) := by
        simp only [view]
        rw [List.getElem?_append_right (by omega), hlen1]
      have e2 : view (b1 ++ b2) (p + k) = view b2 (p + k - b1.length) := by
        simp only [view]
        rw [List.getElem?_append_right (by omega)]
      rw [e1, e2]
      apply hf2
      intro j _ hh hle hlt
      have hb : view (b1 ++ b2) (b1.length + j) = some 46 := by
        have := hit_dot _ _ hh
        simp only [view] at this ⊢
        rw [List.getElem?_append_right (by omega)]
        rw [← this]
        congr 1
        omega
      obtain ⟨d, hd⟩ : ∃ d, b1.length + j = p + d := ⟨b1.length + j - p, by omega⟩
      rw [hd] at hb
      exact exe_no_dot _ p d hocc (by omega) (by omega) hb

/-- Witness for C9: `.exe` followed by NULs, cut after its third byte. -/
theorem efi_patch_bcd_straddling_unchanged_witness :
    0 < [46, 0, 101].length ∧ [46, 0, 101].length < 0 + 8 ∧
    exe_at (view ([46, 0, 101] ++ [0, 120, 0, 101, 0, 0, 0, 0, 0, 0, 0, 0, 0])) 0 ∧
    ∃ out1 out2,
      efi_patch_bcd false [46, 0, 101] 0 [46, 0, 101].length = .ok out1 ∧
      efi_patch_bcd false [0, 120, 0, 101, 0, 0, 0, 0, 0, 0, 0, 0, 0] 3
        [0, 120, 0, 101, 0, 0, 0, 0, 0, 0, 0, 0, 0].length = .ok out2 ∧
      ∀ k, k < 8 → view (out1 ++ out2) (0 + k)
        = view ([46, 0, 101] ++ [0, 120, 0, 101, 0, 0, 0, 0, 0, 0, 0, 0, 0]) (0 + k) :=
  ⟨by decide, by decide, by decide,
    efi_patch_bcd_straddling_unchanged false [46, 0, 101]
      [0, 120, 0, 101, 0, 0, 0, 0, 0, 0, 0, 0, 0] 0 3 0 (by decide) (by decide) (by decide)⟩

/-- C10: whatever the firmware answers, `efi_locate_handle` calls
`LocateHandle` at most twice; a second call happens only after a first
answer `EFI_BUFFER_TOO_SMALL`, on a buffer allocated with exactly the size
reported by that answer; when the function returns, a final status other
than `EFI_SUCCESS` gives a null buffer with `num_handles` untouched, and
`EFI_SUCCESS` gives `buffer_size / sizeof ( EFI_HANDLE )` handles; and it
does return unless an allocation fails. -/
theorem efi_locate_handle_retries_once (P : Platform) (fw : Firmware) (st : State)
    (num_handles : Nat) :
    ∃ evs, (efi_locate_handle P fw st num_handles).state.log = st.log ++ evs ∧
      (locate_calls evs).length ≤ 2 ∧
      ((locate_calls evs).length = 2 →
        (locate_first P fw).status = P.EFI_BUFFER_TOO_SMALL ∧
        locate_calls evs = [16 * P.sizeof_EFI_HANDLE, (locate_first P fw).buffer_size] ∧
        alloc_calls evs = [16 * P.sizeof_EFI_HANDLE, (locate_first P fw).buffer_size]) ∧
      (∀ v st1, efi_locate_handle P fw st num_handles = .ret v st1 →
        ((locate_final P fw).status ≠ EFI_SUCCESS → v = (none, num_handles)) ∧
        ((locate_final P fw).status = EFI_SUCCESS →
          v = (some (locate_final P fw).handles,
            (locate_final P fw).buffer_size / P.sizeof_EFI_HANDLE))) ∧
      (alloc_ok fw 0 (16 * P.sizeof_EFI_HANDLE) →
        alloc_ok fw 1 (locate_first P fw).buffer_size →
        ∃ v st1, efi_locate_handle P fw st num_handles = .ret v st1) := by
  have e1 : fw.LocateHandle 0 (16 * P.sizeof_EFI_HANDLE) = locate_first P fw := rfl
  by_cases ha : (fw.AllocatePool 0 (16 * P.sizeof_EFI_HANDLE)).1 ≠ EFI_SUCCESS ∨
      (fw.AllocatePool 0 (16 * P.sizeof_EFI_HANDLE)).2 = 0
  · refine ⟨[.AllocatePool (16 * P.sizeof_EFI_HANDLE), .die "Could not allocate memory.\n"],
      ?_, ?_, ?_, ?_, ?_⟩
    · simp [efi_locate_handle, efi_malloc, ha, die, State.emit, Outcome.state]
    · simp [locate_calls]
    · simp [locate_calls]
    · intro v st1 h
      simp [efi_locate_handle, efi_malloc, ha, die] at h
    · intro h0 _
      simp only [alloc_ok] at h0
      tauto
  · by_cases hs : (locate_first P fw).status = P.EFI_BUFFER_TOO_SMALL
    · have hfin : locate_final P fw = fw.LocateHandle 1 (locate_first P fw).buffer_size := by
        simp only [locate_final, hs, if_true]
      by_cases hb : (fw.AllocatePool 1 (locate_first P fw).buffer_size).1 ≠ EFI_SUCCESS ∨
          (fw.AllocatePool 1 (locate_first P fw).buffer_size).2 = 0
      · refine ⟨[.AllocatePool (16 * P.sizeof_EFI_HANDLE),
            .LocateHandle (16 * P.sizeof_EFI_HANDLE), .FreePool,
            .AllocatePool (locate_first P fw).buffer_size,
            .die "Could not allocate memory.\n"], ?_, ?_, ?_, ?_, ?_⟩
        · simp only [efi_locate_handle, efi_malloc, ha, if_false, e1, hs, if_true, hb, die]
          simp [State.emit, Outcome.state, efi_free]
        · simp [locate_calls]
        · simp [locate_calls]
        · intro v st1 h
          simp only [efi_locate_handle, efi_malloc, ha, if_false, e1, hs, if_true, hb, die] at h
          exact absurd h (by simp)
        · intro _ h1
          simp only [alloc_ok] at h1
          tauto
      · have hrun : efi_locate_handle P fw st num_handles
            = efi_locate_handle_finish P
                (st.emits [.AllocatePool (16 * P.sizeof_EFI_HANDLE),
                  .LocateHandle (16 * P.sizeof_EFI_HANDLE), .FreePool,
                  .AllocatePool (locate_first P fw).buffer_size,
                  .LocateHandle (locate_first P fw).buffer_size])
                num_handles (locate_final P fw) := by
          simp only [efi_locate_handle, efi_malloc, ha, if_false, e1, hs, if_true, hb, hfin]
          simp [State.emit, State.emits, efi_free]
        rw [hrun]
        refine ⟨[.AllocatePool (16 * P.sizeof_EFI_HANDLE),
            .LocateHandle (16 * P.sizeof_EFI_HANDLE), .FreePool,
            .AllocatePool (locate_first P fw).buffer_size,
            .LocateHandle (locate_first P fw).buffer_size] ++
            (if (locate_final P fw).status ≠ EFI_SUCCESS then [.FreePool] else []),
            ?_, ?_, ?_, ?_, ?_⟩
        · simp only [efi_locate_handle_finish]
          split_ifs <;> simp [State.emit, State.emits, Outcome.state, efi_free]
        · split_ifs <;> simp [locate_calls]
        · intro _
          refine ⟨hs, ?_, ?_⟩
          · split_ifs <;> simp [locate_calls]
          · split_ifs <;> simp [alloc_calls]
        · intro v st1 h
          simp only [efi_locate_handle_finish] at h
          split_ifs at h with hf
          · simp only [Outcome.ret.injEq] at h
            exact ⟨fun _ => h.1.symm, fun a => absurd a hf⟩
          · simp only [Outcome.ret.injEq] at h
            exact ⟨fun a => absurd (not_not.mp hf) a, fun _ => h.1.symm⟩
        · intro _ _
          simp only [efi_locate_handle_finish]
          split_ifs <;> exact ⟨_, _, rfl⟩
    · have hfin : locate_final P fw = locate_first P fw := by
        simp only [locate_final, hs, if_false]
      have hrun : efi_locate_handle P fw st num_handles
          = efi_locate_handle_finish P
              (st.emits [.AllocatePool (16 * P.sizeof_EFI_HANDLE),
                .LocateHandle (16 * P.sizeof_EFI_HANDLE)])
              num_handles (locate_final P fw) := by
        simp only [efi_locate_handle, efi_malloc, ha, if_false, e1, hs, hfin]
        simp [State.emit, State.emits]
      rw [hrun]
      refine ⟨[.AllocatePool (16 * P.sizeof_EFI_HANDLE),
          .LocateHandle (16 * P.sizeof_EFI_HANDLE)] ++
          (if (locate_final P fw).status ≠ EFI_SUCCESS then [.FreePool] else []),
          ?_, ?_, ?_, ?_, ?_⟩
      · simp only [efi_locate_handle_finish]
        split_ifs <;> simp [State.emit, State.emits, Outcome.state, efi_free]
      · split_ifs <;> simp [locate_calls]
      · intro h2
        exfalso
        revert h2
        split_ifs <;> simp [locate_calls]
      · intro v st1 h
        simp only [efi_locate_handle_finish] at h
        split_ifs at h with hf
        · simp only [Outcome.ret.injEq] at h
          exact ⟨fun _ => h.1.symm, fun a => absurd a hf⟩
        · simp only [Outcome.ret.injEq] at h
          exact ⟨fun a => absurd (not_not.mp hf) a, fun _ => h.1.symm⟩
      · intro _ _
        simp only [efi_locate_handle_finish]
        split_ifs <;> exact ⟨_, _, rfl⟩

/-- C3: when the entry `e` is the last plain entry of the walk whose name
is the architecture-specific boot file name or `bootmgfw.efi`, `bootmgfw`
is, after the walk, the file registered for `e`; every plain entry read
before `e` has its own, different registry slot, so an earlier match is not
the one `bootmgfw` refers to. -/
theorem bootmgfw_is_last_match (P : Platform) (fw : Firmware) (handle : Nat)
    (a : List ReadResp) (e : ReadResp) (b : List ReadResp) (z : ReadResp)
    (post : List ReadResp) (st : State)
    (hok : walk_ok P fw handle (a ++ e :: b)) (hz : is_end z)
    (he : is_dir P e = false ∧ is_bootmgfw_name P e.FileName = true)
    (hb : ∀ x ∈ b, is_dir P x = false → is_bootmgfw_name P x.FileName = false) :
    ∃ st1, read_root_directory P fw handle (a ++ e :: b ++ z :: post) st = .ret () st1 ∧
      st1.bootmgfw = some (st.files.length + (plain_files P a).length) ∧
      st1.files[st.files.length + (plain_files P a).length]?
        = some (entry_record P e (fw.Open handle e.FileName).2) ∧
      (∀ a1 e1 m, a = a1 ++ e1 :: m → is_dir P e1 = false →
        st1.files[st.files.length + (plain_files P a1).length]?
          = some (entry_record P e1 (fw.Open handle e1.FileName).2) ∧
        st1.bootmgfw ≠ some (st.files.length + (plain_files P a1).length)) := by
  refine ⟨_, read_root_directory_complete P fw handle (a ++ e :: b) z post st hok hz, ?_, ?_, ?_⟩
  · simp only [State.emit, List.foldl_append, List.foldl_cons]
    rw [walk_bootmgfw_keep P fw handle b hb, walk_step_bootmgfw, walk_files]
    simp [he.1, he.2]
  · simp only [State.emit, walk_files]
    exact files_lookup P fw handle st.files a b e he.1
  · intro a1 e1 m ha h1
    subst ha
    constructor
    · simp only [State.emit, walk_files, List.append_assoc, List.cons_append]
      exact files_lookup P fw handle st.files a1 (m ++ e :: b) e1 h1
    · simp only [State.emit, List.foldl_append, List.foldl_cons]
      rw [walk_bootmgfw_keep P fw handle b hb, walk_step_bootmgfw]
      simp only [he.1, he.2, and_self, if_true]
      rw [← List.foldl_cons, ← List.foldl_append, walk_files]
      simp [plain_files_append, plain_files_cons P e1 m h1]

/-- Witness for C3: `bootmgfw.efi` is read before `BootX64.efi`; the walk
leaves `bootmgfw` on the file of the latter. -/
theorem bootmgfw_is_last_match_witness :
    walk_ok demo_platform demo_firmware 20 (demo_before ++ demo_loader :: demo_after) ∧
    is_end demo_end ∧
    (is_dir demo_platform demo_loader = false ∧
      is_bootmgfw_name demo_platform demo_loader.FileName = true) ∧
    (∀ x ∈ demo_after, is_dir demo_platform x = false →
      is_bootmgfw_name demo_platform x.FileName = false) ∧
    ∃ st1, read_root_directory demo_platform demo_firmware 20
        (demo_before ++ demo_loader :: demo_after ++ demo_end :: demo_beyond) demo_state
        = .ret () st1 ∧
      st1.bootmgfw = some (demo_state.files.length + (plain_files demo_platform demo_before).length) ∧
      st1.files[demo_state.files.length + (plain_files demo_platform demo_before).length]?
        = some (entry_record demo_platform demo_loader
            (demo_firmware.Open 20 demo_loader.FileName).2) ∧
      (∀ a1 e1 m, demo_before = a1 ++ e1 :: m → is_dir demo_platform e1 = false →
        st1.files[demo_state.files.length + (plain_files demo_platform a1).length]?
          = some (entry_record demo_platform e1 (demo_firmware.Open 20 e1.FileName).2) ∧
        st1.bootmgfw ≠ some (demo_state.files.length + (plain_files demo_platform a1).length)) :=
  ⟨by decide, by decide, by decide, by decide,
    bootmgfw_is_last_match demo_platform demo_firmware 20 demo_before demo_loader demo_after
      demo_end demo_beyond demo_state (by decide) (by decide) (by decide) (by decide)⟩

/-- C4: in every run of `extract_by_handle`, a call of `wim_add_file` on the
boot-manager path is logged only if the marker file opened and the
directory walk returned, in a state with `bootwim` set and `bootmgfw`
unset, and in such a state it is logged; when the walk returned with
`bootmgfw` on a real-volume file `f`, that path is never queried, the run
returns 0 and `bootmgfw` is still `f`.  The boot-manager path is not among
the auxiliary paths handed to `wim_add_files` either. -/
theorem archive_loader_only_when_unset (P : Platform) (fw : Firmware) (wim : Archive)
    (st : State) (handle : Nat) :
    ∃ evs, (extract_by_handle P fw wim st handle).state.log = st.log ++ evs ∧
      (queries_bootmgfw evs = true →
        marker_opens fw handle ∧
        ∃ s1, read_root_directory P fw handle (fw.Read handle)
            (st.emits (probe_events fw handle)) = .ret () s1 ∧
          s1.bootwim ≠ none ∧ s1.bootmgfw = none) ∧
      (∀ s1, marker_opens fw handle →
        read_root_directory P fw handle (fw.Read handle)
          (st.emits (probe_events fw handle)) = .ret () s1 →
        s1.bootwim ≠ none → s1.bootmgfw = none → queries_bootmgfw evs = true) ∧
      (∀ s1 f, marker_opens fw handle →
        read_root_directory P fw handle (fw.Read handle)
          (st.emits (probe_events fw handle)) = .ret () s1 →
        s1.bootmgfw = some f →
        queries_bootmgfw evs = false ∧
        ∃ s2, extract_by_handle P fw wim st handle = .ret 0 s2 ∧ s2.bootmgfw = some f) ∧
      bootmgfw_path ∉ efi_wim_paths := by
  have hpath : bootmgfw_path ∉ efi_wim_paths := by decide
  by_cases hm : marker_opens fw handle
  · obtain ⟨evs, h1, h2, h3, h4⟩ :=
      extract_confirmed_queries P fw wim (st.emits (probe_events fw handle)) handle
    have hq : queries_bootmgfw (probe_events fw handle ++ evs) = queries_bootmgfw evs := by
      rw [queries_bootmgfw_append, queries_bootmgfw_probe]
      simp
    rw [← extract_by_handle_confirmed P fw wim st handle hm] at h1 h4
    refine ⟨probe_events fw handle ++ evs, ?_, ?_, ?_, ?_, hpath⟩
    · rw [h1]; simp [State.emits]
    · intro h
      rw [hq] at h
      exact ⟨hm, h2 h⟩
    · intro s1 _ hr hw hf
      rw [hq]
      exact h3 s1 hr hw hf
    · intro s1 f _ hr hf
      rw [hq]
      exact h4 s1 f hr hf
  · refine ⟨probe_events fw handle, ?_, ?_, ?_, ?_, hpath⟩
    · rw [extract_by_handle_rejected P fw wim st handle hm]; rfl
    · intro h
      rw [queries_bootmgfw_probe] at h
      exact absurd h (by simp)
    · intro s1 h; exact absurd h hm
    · intro s1 f h; exact absurd h hm

/-- C5: on a confirmed volume whose walk ends normally without a loader
name among the plain entries, with `bootmgfw` null on entry, `bootwim` set
and the boot manager absent from the archive, `extract_by_handle` ends in
`die`; after the walk the log shows, in this order, the structural patch,
the failed `wim_add_file` on the boot-manager path, `wim_add_files` on
`efi_wim_paths`, the registrations it made, and only then the final `die`.
In every state with `bootwim` set the archive step calls `wim_add_files` on
`efi_wim_paths`, whatever became of the boot manager. -/
theorem abort_after_auxiliary_extraction (P : Platform) (fw : Firmware) (wim : Archive)
    (st : State) (handle : Nat) (pre : List ReadResp) (z : ReadResp)
    (post : List ReadResp) (bw : Nat)
    (hm : marker_opens fw handle) (hreads : fw.Read handle = pre ++ z :: post)
    (hok : walk_ok P fw handle pre) (hz : is_end z)
    (hw : st.bootwim = some bw) (hf : st.bootmgfw = none)
    (hno : ∀ x ∈ pre, is_dir P x = false → is_bootmgfw_name P x.FileName = false)
    (habs : wim.lookup P.cmdline_index bootmgfw_path = none) :
    ∃ s1 adds st2,
      read_root_directory P fw handle (fw.Read handle) (st.emits (probe_events fw handle))
        = .ret () s1 ∧
      extract_by_handle P fw wim st handle = .die st2 ∧
      st2.log = s1.log ++
        [.vdisk_patch_file bw .patch_wim,
          .wim_add_file bw P.cmdline_index bootmgfw_path (efi_bootarch P),
          .wim_add_files bw P.cmdline_index efi_wim_paths] ++ adds ++
        [.die "FATAL: no %ls or bootmgfw.efi found\n"] ∧
      (∀ e ∈ adds, is_vdisk_add e = true) ∧
      (∀ s bw1, s.bootwim = some bw1 → ∃ e1 e2, (process_wim P wim s).log
        = s.log ++ e1 ++ .wim_add_files bw1 P.cmdline_index efi_wim_paths :: e2) := by
  have hwalk := read_root_directory_complete P fw handle pre z post
    (st.emits (probe_events fw handle)) hok hz
  rw [← hreads] at hwalk
  have hw1 : ((pre.foldl (walk_step P fw handle) (st.emits (probe_events fw handle))).emit
      (.Read handle)).bootwim = some bw := by
    simp only [State.emit, walk_bootwim]
    exact hw
  have hf1 : ((pre.foldl (walk_step P fw handle) (st.emits (probe_events fw handle))).emit
      (.Read handle)).bootmgfw = none := by
    simp only [State.emit, walk_bootmgfw_keep P fw handle pre hno]
    exact hf
  obtain ⟨adds1, adds2, h1, h2, h0, h3⟩ := process_wim_unresolved P wim _ bw hw1 hf1
  have h0 := h0 habs
  subst h0
  rw [habs] at h3
  simp only [Option.map_none'] at h3
  refine ⟨(pre.foldl (walk_step P fw handle) (st.emits (probe_events fw handle))).emit
      (.Read handle), adds2,
    (process_wim P wim ((pre.foldl (walk_step P fw handle)
      (st.emits (probe_events fw handle))).emit (.Read handle))).emit
      (.die "FATAL: no %ls or bootmgfw.efi found\n"),
    hwalk, ?_, ?_, by simpa using h2,
    fun s bw1 hs => process_wim_calls_wim_add_files P wim s bw1 hs⟩
  · rw [extract_by_handle_confirmed P fw wim st handle hm]
    simp only [extract_confirmed, hwalk, check_boot_file, h3, die]
  · simp only [State.emit] at h1 ⊢
    rw [h1]
    simp

/-- C1: let `efi_locate_handle` return the candidates `b 0`, ..., `b (n - 1)`
and let `k` be the first position whose handle lets the marker file open
(in particular the only one).  Then `extract_by_handle` rejects every
candidate before `k` with -1 after its probing calls, it goes on to the
directory walk on candidate `k`, and `efi_extract_hda` is exactly: the
probes of the candidates before `k` in list order, the probe of `k`, and
the confirmed run on `k`.  After the probe of `k` the log only holds calls
on volume `b k`, on the registry and on the archive: no later candidate is
probed and the marker file is opened on none of them. -/
theorem efi_extract_hda_accepts_first_marker (P : Platform) (fw : Firmware)
    (wim : Archive) (st : State) (b : Nat → Nat) (n : Nat) (st1 : State) (k : Nat)
    (hloc : efi_locate_handle P fw st 0 = .ret (some b, n) st1)
    (hk : k < n) (hm : marker_opens fw (b k))
    (hbefore : ∀ j, j < k → ¬ marker_opens fw (b j)) :
    (∀ j, j < k → ∀ s, extract_by_handle P fw wim s (b j)
        = .ret (-1) (s.emits (probe_events fw (b j)))) ∧
    (∀ s, extract_by_handle P fw wim s (b k)
        = extract_confirmed P fw wim (s.emits (probe_events fw (b k))) (b k)) ∧
    efi_extract_hda P fw wim st
      = accept (extract_confirmed P fw wim
          (st1.emits (probes fw b 0 k ++ probe_events fw (b k))) (b k)) ∧
    ∃ evs, (efi_extract_hda P fw wim st).state.log
        = st1.log ++ (probes fw b 0 k ++ probe_events fw (b k)) ++ evs ∧
      ∀ e ∈ evs, volume_event (b k) e = true := by
  have hrun : efi_extract_hda P fw wim st
      = accept (extract_confirmed P fw wim
          (st1.emits (probes fw b 0 k ++ probe_events fw (b k))) (b k)) := by
    simp only [efi_extract_hda, hloc]
    exact efi_extract_hda_loop_accept P fw wim b n k hk hm n 0 st1 (Nat.zero_le k)
      (by omega) (fun j _ h2 => hbefore j h2)
  refine ⟨fun j hj s => extract_by_handle_rejected P fw wim s (b j) (hbefore j hj),
    fun s => extract_by_handle_confirmed P fw wim s (b k) hm, hrun, ?_⟩
  obtain ⟨evs, h1, h2⟩ := extract_confirmed_events P fw wim
    (st1.emits (probes fw b 0 k ++ probe_events fw (b k))) (b k)
  exact ⟨evs, by rw [hrun, accept_state, h1]; rfl, h2⟩

/-- C6: when no candidate returned by `efi_locate_handle` lets the marker
file open (also when there is no candidate at all, or when the enumeration
itself fails), `efi_extract_hda` ends in `die`, the registry is as it was
before the call and no `vdisk_add_file` call was made. -/
theorem efi_extract_hda_dies_without_marker (P : Platform) (fw : Firmware)
    (wim : Archive) (st : State)
    (hnone : ∀ b n st1, efi_locate_handle P fw st 0 = .ret (some b, n) st1 →
      ∀ j, j < n → ¬ marker_opens fw (b j)) :
    ∃ st2 evs, efi_extract_hda P fw wim st = .die st2 ∧
      st2.files = st.files ∧ st2.bootmgfw = st.bootmgfw ∧
      st2.log = st.log ++ evs ∧
      (∀ e ∈ evs, is_vdisk_add e = false) := by
  obtain ⟨evs, _, h2, h3⟩ := efi_locate_handle_frame P fw st 0
  rcases h3 with h3 | h3 | ⟨b, n, h3⟩
  · exact ⟨st.emits evs, evs, by simp only [efi_extract_hda, h3], rfl, rfl, rfl, h2⟩
  · refine ⟨(st.emits evs).emit (.die "FATAL: hda not found\n"),
      evs ++ [.die "FATAL: hda not found\n"], ?_, rfl, rfl, by simp [State.emit, State.emits],
      ?_⟩
    · simp only [efi_extract_hda, h3, efi_extract_hda_loop, Nat.lt_irrefl, if_false, die]
    · intro e he
      rcases List.mem_append.mp he with he | he
      · exact h2 e he
      · simp only [List.mem_singleton] at he
        subst he
        rfl
  · have hj := hnone b n (st.emits evs) h3
    refine ⟨((st.emits evs).emits (probes fw b 0 (n - 0))).emit (.die "FATAL: hda not found\n"),
      evs ++ probes fw b 0 (n - 0) ++ [.die "FATAL: hda not found\n"], ?_, rfl, rfl,
      by simp [State.emit, State.emits], ?_⟩
    · simp only [efi_extract_hda, h3]
      rw [efi_extract_hda_loop_reject P fw wim b n n 0 (st.emits evs)
        (fun j _ h => hj j h) (by omega)]
      rfl
    · intro e he
      simp only [List.mem_append, List.mem_singleton] at he
      rcases he with (he | he) | rfl
      · exact h2 e he
      · exact probes_no_add fw b _ 0 e he
      · rfl

/-- Witness for C1: candidates 10, 20, 30, the marker file on 20 only. -/
theorem efi_extract_hda_accepts_first_marker_witness :
    efi_locate_handle demo_platform demo_firmware demo_state 0
      = .ret (some demo_handles, 3) demo_located ∧
    1 < 3 ∧ marker_opens demo_firmware (demo_handles 1) ∧
    (∀ j, j < 1 → ¬ marker_opens demo_firmware (demo_handles j)) ∧
    ((∀ j, j < 1 → ∀ s, extract_by_handle demo_platform demo_firmware demo_archive s
        (demo_handles j) = .ret (-1) (s.emits (probe_events demo_firmware (demo_handles j)))) ∧
    (∀ s, extract_by_handle demo_platform demo_firmware demo_archive s (demo_handles 1)
        = extract_confirmed demo_platform demo_firmware demo_archive
            (s.emits (probe_events demo_firmware (demo_handles 1))) (demo_handles 1)) ∧
    efi_extract_hda demo_platform demo_firmware demo_archive demo_state
      = accept (extract_confirmed demo_platform demo_firmware demo_archive
          (demo_located.emits (probes demo_firmware demo_handles 0 1 ++
            probe_events demo_firmware (demo_handles 1))) (demo_handles 1)) ∧
    ∃ evs, (efi_extract_hda demo_platform demo_firmware demo_archive demo_state).state.log
        = demo_located.log ++ (probes demo_firmware demo_handles 0 1 ++
            probe_events demo_firmware (demo_handles 1)) ++ evs ∧
      ∀ e ∈ evs, volume_event (demo_handles 1) e = true) :=
  ⟨rfl, by decide, by decide, by decide,
    efi_extract_hda_accepts_first_marker demo_platform demo_firmware demo_archive demo_state
      demo_handles 3 demo_located 1 rfl (by decide) (by decide) (by decide)⟩

/-- Witness for C6: the same candidates, none of which opens the marker file. -/
theorem efi_extract_hda_dies_without_marker_witness :
    (∀ b n st1, efi_locate_handle demo_platform demo_firmware_bare demo_state 0
        = .ret (some b, n) st1 → ∀ j, j < n → ¬ marker_opens demo_firmware_bare (b j)) ∧
    (∃ st2 evs, efi_extract_hda demo_platform demo_firmware_bare demo_archive demo_state
        = .die st2 ∧
      st2.files = demo_state.files ∧ st2.bootmgfw = demo_state.bootmgfw ∧
      st2.log = demo_state.log ++ evs ∧
      (∀ e ∈ evs, is_vdisk_add e = false)) ∧
    efi_extract_hda demo_platform demo_firmware_bare demo_archive demo_state
      = .die ⟨[], none, none,
          [.AllocatePool 128, .LocateHandle 128, .FreePool, .AllocatePool 24, .LocateHandle 24,
            .OpenProtocol 10,
            .OpenProtocol 20, .OpenVolume 20, .CloseProtocol 20, .Open 20 HDA_SGN_FILE,
            .OpenProtocol 30, .OpenVolume 30, .CloseProtocol 30, .Open 30 HDA_SGN_FILE,
            .die "FATAL: hda not found\n"]⟩ :=
  ⟨fun _ _ _ _ _ _ hm => absurd hm.2.2 (by simp [demo_firmware_bare]),
    efi_extract_hda_dies_without_marker demo_platform demo_firmware_bare demo_archive
      demo_state (fun _ _ _ _ _ _ hm => absurd hm.2.2 (by simp [demo_firmware_bare])),
    by decide⟩

/-- Witness for C4: volume 20 holds two loader names and `bootwim` is set;
the walk leaves `bootmgfw` on file 2, the archive is never asked for the
boot manager and the run returns 0 with `bootmgfw` still on file 2. -/
theorem archive_loader_only_when_unset_witness :
    marker_opens demo_firmware 20 ∧
    (extract_by_handle demo_platform demo_firmware demo_archive demo_state_wim 20).state.bootmgfw
      = some 2 ∧
    queries_bootmgfw
      (extract_by_handle demo_platform demo_firmware demo_archive demo_state_wim 20).state.log
      = false ∧
    ∃ evs, (extract_by_handle demo_platform demo_firmware demo_archive demo_state_wim
          20).state.log = demo_state_wim.log ++ evs ∧
      (queries_bootmgfw evs = true →
        marker_opens demo_firmware 20 ∧
        ∃ s1, read_root_directory demo_platform demo_firmware 20 (demo_firmware.Read 20)
            (demo_state_wim.emits (probe_events demo_firmware 20)) = .ret () s1 ∧
          s1.bootwim ≠ none ∧ s1.bootmgfw = none) ∧
      (∀ s1, marker_opens demo_firmware 20 →
        read_root_directory demo_platform demo_firmware 20 (demo_firmware.Read 20)
          (demo_state_wim.emits (probe_events demo_firmware 20)) = .ret () s1 →
        s1.bootwim ≠ none → s1.bootmgfw = none → queries_bootmgfw evs = true) ∧
      (∀ s1 f, marker_opens demo_firmware 20 →
        read_root_directory demo_platform demo_firmware 20 (demo_firmware.Read 20)
          (demo_state_wim.emits (probe_events demo_firmware 20)) = .ret () s1 →
        s1.bootmgfw = some f →
        queries_bootmgfw evs = false ∧
        ∃ s2, extract_by_handle demo_platform demo_firmware demo_archive demo_state_wim 20
            = .ret 0 s2 ∧ s2.bootmgfw = some f) ∧
      bootmgfw_path ∉ efi_wim_paths :=
  ⟨by decide, by decide, by decide,
    archive_loader_only_when_unset demo_platform demo_firmware demo_archive demo_state_wim 20⟩

/-- Witness for C5: volume 40 has no loader name, `bootwim` is set and the
archive holds nothing. -/
theorem abort_after_auxiliary_extraction_witness :
    marker_opens demo_firmware 40 ∧
    demo_firmware.Read 40 = demo_plain ++ demo_end :: demo_beyond ∧
    walk_ok demo_platform demo_firmware 40 demo_plain ∧ is_end demo_end ∧
    demo_state_wim.bootwim = some 0 ∧ demo_state_wim.bootmgfw = none ∧
    (∀ x ∈ demo_plain, is_dir demo_platform x = false →
      is_bootmgfw_name demo_platform x.FileName = false) ∧
    demo_archive.lookup demo_platform.cmdline_index bootmgfw_path = none ∧
    ∃ s1 adds st2,
      read_root_directory demo_platform demo_firmware 40 (demo_firmware.Read 40)
          (demo_state_wim.emits (probe_events demo_firmware 40)) = .ret () s1 ∧
      extract_by_handle demo_platform demo_firmware demo_archive demo_state_wim 40
        = .die st2 ∧
      st2.log = s1.log ++
        [.vdisk_patch_file 0 .patch_wim,
          .wim_add_file 0 demo_platform.cmdline_index bootmgfw_path
            (efi_bootarch demo_platform),
          .wim_add_files 0 demo_platform.cmdline_index efi_wim_paths] ++ adds ++
        [.die "FATAL: no %ls or bootmgfw.efi found\n"] ∧
      (∀ e ∈ adds, is_vdisk_add e = true) ∧
      (∀ s bw1, s.bootwim = some bw1 → ∃ e1 e2,
        (process_wim demo_platform demo_archive s).log
          = s.log ++ e1 ++
            .wim_add_files bw1 demo_platform.cmdline_index efi_wim_paths :: e2) :=
  ⟨by decide, by decide, by decide, by decide, rfl, rfl, by decide, rfl,
    abort_after_auxiliary_extraction demo_platform demo_firmware demo_archive demo_state_wim
      40 demo_plain demo_end demo_beyond 0 (by decide) (by decide) (by decide) (by decide)
      rfl rfl (by decide) rfl⟩

/-- Witness for C10: the first answer is `EFI_BUFFER_TOO_SMALL` with size
24, the second one succeeds; three handles are returned after two calls. -/
theorem efi_locate_handle_retries_once_witness :
    efi_locate_handle demo_platform demo_firmware demo_state 0
      = .ret (some demo_handles, 3) demo_located ∧
    locate_calls demo_located.log = [128, 24] ∧
    alloc_calls demo_located.log = [128, 24] ∧
    ∃ evs, (efi_locate_handle demo_platform demo_firmware demo_state 0).state.log
        = demo_state.log ++ evs ∧
      (locate_calls evs).length ≤ 2 ∧
      ((locate_calls evs).length = 2 →
        (locate_first demo_platform demo_firmware).status
          = demo_platform.EFI_BUFFER_TOO_SMALL ∧
        locate_calls evs = [16 * demo_platform.sizeof_EFI_HANDLE,
          (locate_first demo_platform demo_firmware).buffer_size] ∧
        alloc_calls evs = [16 * demo_platform.sizeof_EFI_HANDLE,
          (locate_first demo_platform demo_firmware).buffer_size]) ∧
      (∀ v st1, efi_locate_handle demo_platform demo_firmware demo_state 0 = .ret v st1 →
        ((locate_final demo_platform demo_firmware).status ≠ EFI_SUCCESS → v = (none, 0)) ∧
        ((locate_final demo_platform demo_firmware).status = EFI_SUCCESS →
          v = (some (locate_final demo_platform demo_firmware).handles,
            (locate_final demo_platform demo_firmware).buffer_size
              / demo_platform.sizeof_EFI_HANDLE))) ∧
      (alloc_ok demo_firmware 0 (16 * demo_platform.sizeof_EFI_HANDLE) →
        alloc_ok demo_firmware 1 (locate_first demo_platform demo_firmware).buffer_size →
        ∃ v st1, efi_locate_handle demo_platform demo_firmware demo_state 0 = .ret v st1) :=
  ⟨rfl, by decide, by decide,
    efi_locate_handle_retries_once demo_platform demo_firmware demo_state 0⟩

end EfiFile
